import Mathlib

/-!
# Share index and chat input of eiskaltdcpp

A shallow embedding of `dcpp/ShareManager.h` (the `Directory` / `File` data
model, its comparators, the inline operations of `ShareManager`) and of
`eiskaltdcpp/ChatEdit.cpp` (nick completion in the chat input), followed by
the properties proved about them.

Conventions of the embedding

* `std::string` is a list of bytes; `c_str()` appends the terminating NUL.
* `std::set<File, FileLess>` is the list of its elements in iteration order;
  an iterator is a position in that list and `end()` is its length.
* `BOOLSETTING(CASESENSITIVE_FILELIST)` is the Boolean parameter
  `caseSensitive`; `Util::stricmp` (declared in `Util.h`) is the parameter
  `stricmp`, assumed to be a three-way comparison (`ThreeWay`) where its sign
  matters.
* A pointer is the address it holds, 0 or `none` when null; an operation that
  can dereference a null pointer returns an `Option`, `none` for the fault.
* The operations whose bodies are in `ShareManager.cpp` are modelled after the
  specification; each such definition says so.
-/

namespace dcpp

/-! ## Strings and the C comparison -/

/-- A `char` read as `unsigned char`. -/
abbrev Byte := Fin 256

/-- The payload of a `std::string`. -/
abbrev Str := List Byte

/-- The array `s.c_str()` points to: the payload followed by a NUL. -/
def c_str (s : Str) : List Byte := s ++ [0]

/-- The C library `strcmp` on NUL-terminated arrays: the first position where
the two arrays differ decides, by the difference of the two bytes read as
`unsigned char`; two equal bytes that are NUL end the comparison with 0.
The last equation is never reached on arrays that carry their terminator. -/
def strcmp : List Byte → List Byte → Int
  | a :: as, b :: bs =>
    if a ≠ b then (a.val : Int) - (b.val : Int)
    else if a = 0 then 0
    else strcmp as bs
  | _, _ => 0

/-- What a three-way string comparison has to satisfy for its sign to be a
strict weak order: the sign flips with the arguments, "less" is transitive and
"equal" is transitive. -/
def ThreeWay (cmp : Str → Str → Int) : Prop :=
  (∀ a b, cmp a b < 0 ↔ 0 < cmp b a) ∧
  (∀ a b c, cmp a b < 0 → cmp b c < 0 → cmp a c < 0) ∧
  (∀ a b c, cmp a b = 0 → cmp b c = 0 → cmp a c = 0)

/-! ## `ShareManager::Directory::File` -/

/-- A 24-byte Tiger tree root, read as a number. -/
abbrev TTHValue := Nat

/-- The data members of `Directory::File`. `parent` is the address held by the
`Directory*`; 0 is the null pointer. -/
structure File where
  name : Str
  tth : TTHValue
  size : Int
  parent : Nat
  deriving DecidableEq, Repr

namespace File

/-- The member `File::operator==`. -/
def eq (caseSensitive : Bool) (stricmp : Str → Str → Int) (lhs rhs : File) : Bool :=
  if caseSensitive then
    lhs.parent == rhs.parent && (strcmp (c_str lhs.name) (c_str rhs.name) == 0)
  else
    lhs.parent == rhs.parent && (stricmp lhs.name rhs.name == 0)

/-- The call `File::StringComp(a)(b)`. -/
def StringComp (caseSensitive : Bool) (stricmp : Str → Str → Int) (a : Str) (b : File) : Bool :=
  if caseSensitive then
    strcmp (c_str a) (c_str b.name) == 0
  else
    stricmp a b.name == 0

/-- The call `File::FileLess()(a, b)`. -/
def FileLess (caseSensitive : Bool) (stricmp : Str → Str → Int) (a b : File) : Bool :=
  if caseSensitive then
    decide (strcmp (c_str a.name) (c_str b.name) < 0)
  else
    decide (stricmp a.name b.name < 0)

end File

/-! ## The standard containers and algorithms the header uses -/

/-- The algorithm `std::find_if(first, last, pred)`: the position of the first element that
satisfies `pred`, the length of the range when there is none. -/
def find_if {α : Type} (pred : α → Bool) : List α → Nat
  | [] => 0
  | x :: xs => if pred x then 0 else find_if pred xs + 1

/-- The member `std::set::lower_bound`: the position of the first element that is not
less than `x`. -/
def lower_bound {α : Type} (less : α → α → Bool) (x : α) : List α → Nat
  | [] => 0
  | y :: ys => if less y x then lower_bound less x ys + 1 else 0

/-- The member `std::set::find(x)`: the lower bound of `x` when the element there is not
greater than `x`, `end()` otherwise. -/
def setFind {α : Type} (less : α → α → Bool) (s : List α) (x : α) : Nat :=
  let i := lower_bound less x s
  match s.get? i with
  | some y => if less x y then s.length else i
  | none => s.length

/-- The member `std::set::insert(x)` on the iteration order: `x` goes in front of its
lower bound, unless the element there is equivalent to `x` (neither is less
than the other), in which case the set is left as it is. -/
def setInsert {α : Type} (less : α → α → Bool) : List α → α → List α
  | [], x => [x]
  | y :: ys, x =>
    if less y x then y :: setInsert less ys x
    else if less x y then x :: y :: ys
    else y :: ys

/-! ## `ShareManager::Directory` -/

/-- The data members of `ShareManager::Directory`. `addr` is the address of
the node, the value every `Ptr` and `Directory*` that refers to it holds;
`parent` is the address of the parent, 0 for a root. `directories` lists the
entries of the `Map` (key, child) and `files` the `std::set` in iteration
order; `fileTypes` is the `uint32_t` bitmap. -/
inductive Directory where
  | mk (addr : Nat) (name : Str) (parent : Nat) (size : Int)
      (directories : List (Str × Directory)) (files : List File) (fileTypes : Nat) : Directory

namespace Directory

def addr : Directory → Nat
  | mk a _ _ _ _ _ _ => a

def name : Directory → Str
  | mk _ n _ _ _ _ _ => n

def parent : Directory → Nat
  | mk _ _ p _ _ _ _ => p

def size : Directory → Int
  | mk _ _ _ s _ _ _ => s

def directories : Directory → List (Str × Directory)
  | mk _ _ _ _ ds _ _ => ds

def files : Directory → List File
  | mk _ _ _ _ _ fs _ => fs

def fileTypes : Directory → Nat
  | mk _ _ _ _ _ _ t => t

/-- The member `Directory::hasType(type)`, with `SearchManager::TYPE_ANY` (declared in
`SearchManager.h`) as a parameter. `||` evaluates its right operand only when
`type` is not `TYPE_ANY`; there `1 << type` is a 32-bit shift, defined for
`type < 32` only, and `none` stands for the shift that is not. -/
def hasType (TYPE_ANY : Nat) (d : Directory) (type : Nat) : Option Bool :=
  if type = TYPE_ANY then some true
  else if type < 32 then some ((d.fileTypes &&& ((1 <<< type) % 2 ^ 32)) != 0)
  else none

/-- The member `Directory::findFile(aFile)`: `find_if` over `files` with
`File::StringComp(aFile)`. The result is a position in `files`; `files.end()`
is `files.length`. -/
def findFile (caseSensitive : Bool) (stricmp : Str → Str → Int) (d : Directory) (aFile : Str) :
    Nat :=
  find_if (File.StringComp caseSensitive stricmp aFile) d.files

end Directory

/-! ## `ShareManager` -/

/-- The member `unordered_map::find(key)`: the position of the entry with that key, the
number of entries (`end()`) when there is none. -/
def mapFind {κ ν : Type} [DecidableEq κ] (m : List (κ × ν)) (key : κ) : Nat :=
  find_if (fun e => decide (e.1 = key)) m

/-- The data members of `ShareManager`. `cs` is the depth to which the
(reentrant) critical section is held. An entry of `tthIndex` pairs a hash with
the `File` its set iterator points to. `bzXmlRef` holds the descriptor of the
open listing file, `bloom` the bits of the filter. -/
structure ShareManager where
  hits : Nat
  bzXmlFile : Str
  xmlListLen : Int
  xmlRoot : TTHValue
  bzXmlListLen : Int
  bzXmlRoot : TTHValue
  bzXmlRef : Option Nat
  xmlDirty : Bool
  forceXmlRefresh : Bool
  refreshDirs : Bool
  update : Bool
  initial : Bool
  listN : Int
  refreshing : Bool
  lastXmlUpdate : Nat
  lastFullUpdate : Nat
  cs : Nat
  directories : List Directory
  shares : List (Str × Str)
  tthIndex : List (TTHValue × File)
  bloom : List Bool

namespace ShareManager

/-- The declaration `Lock l(cs)`: the constructor enters the critical section. -/
def lock (s : ShareManager) : ShareManager := { s with cs := s.cs + 1 }

/-- The destructor of `Lock` leaves the critical section. -/
def unlock (s : ShareManager) : ShareManager := { s with cs := s.cs - 1 }

/-- The member `ShareManager::setDirty()`. -/
def setDirty (s : ShareManager) : ShareManager := { s with xmlDirty := true }

/-- The member `ShareManager::isTTHShared(tth)`: the returned value and the state the
call leaves behind. -/
def isTTHShared (s : ShareManager) (tth : TTHValue) : Bool × ShareManager :=
  let s1 := s.lock
  let r := mapFind s1.tthIndex tth != s1.tthIndex.length
  (r, s1.unlock)

end ShareManager

end dcpp

/-! ## `ChatEdit` -/

namespace Qt

/-- A UTF-16 code unit. -/
abbrev QChar := Fin 65536

/-- The code units of a `QString`. -/
abbrev QString := List QChar

/-- The value of `Qt::Key_Escape`. -/
def Key_Escape : Nat := 0x01000000
/-- The value of `Qt::Key_Tab`. -/
def Key_Tab : Nat := 0x01000001
/-- The value of `Qt::Key_Backtab`. -/
def Key_Backtab : Nat := 0x01000002
/-- The value of `Qt::Key_Return`. -/
def Key_Return : Nat := 0x01000004
/-- The value of `Qt::Key_Enter`. -/
def Key_Enter : Nat := 0x01000005
/-- The value of `Qt::Key_A`. -/
def Key_A : Nat := 0x41

/-- The value of `Qt::NoModifier`. -/
def NoModifier : Nat := 0x00000000
/-- The value of `Qt::ShiftModifier`. -/
def ShiftModifier : Nat := 0x02000000
/-- The value of `Qt::ControlModifier`. -/
def ControlModifier : Nat := 0x04000000
/-- The value of `Qt::KeypadModifier`. -/
def KeypadModifier : Nat := 0x20000000

/-- What the code reads and writes of a `QKeyEvent`. -/
structure QKeyEvent where
  key : Nat
  modifiers : Nat
  text : QString
  accepted : Bool
  deriving DecidableEq, Repr

/-- The call `e->accept()`. -/
def QKeyEvent.accept (e : QKeyEvent) : QKeyEvent := { e with accepted := true }

/-- The call `e->ignore()`. -/
def QKeyEvent.ignore (e : QKeyEvent) : QKeyEvent := { e with accepted := false }

/-- Anchor and position of a `QTextCursor`. -/
structure QTextCursor where
  anchor : Int
  position : Int
  deriving DecidableEq, Repr

/-- The two values of `QTextCursor::MoveMode`. -/
inductive MoveMode where
  | MoveAnchor
  | KeepAnchor

/-- The call `cursor.setPosition(pos, m)` on a document of `len` characters.
Qt refuses a position outside the document and leaves the cursor as it is;
otherwise the position moves, and the anchor with it under `MoveAnchor`. -/
def QTextCursor.setPosition (len : Nat) (c : QTextCursor) (pos : Int) (m : MoveMode) :
    QTextCursor :=
  if pos < 0 ∨ (len : Int) < pos then c
  else
    match m with
    | MoveMode.MoveAnchor => { anchor := pos, position := pos }
    | MoveMode.KeepAnchor => { c with position := pos }

/-- The call `cursor.insertText(text)` on the document `doc`: the characters
between anchor and position, whichever comes first, are replaced by `text`,
and the cursor is left behind the inserted text without a selection. -/
def QTextCursor.insertText (doc : QString) (c : QTextCursor) (text : QString) :
    QString × QTextCursor :=
  let lo := (min c.anchor c.position).toNat
  let hi := (max c.anchor c.position).toNat
  (doc.take lo ++ text ++ doc.drop hi,
    { anchor := (lo + text.length : Nat), position := (lo + text.length : Nat) })

/-- What the code reads and writes of the `QCompleter` behind `cc`: the widget
it is attached to, whether `popup()` is visible, the row of
`popup()->currentIndex()` (-1 for an invalid index), `completionPrefix()`, and
of `completionModel()` the row count and the display text of each cell. -/
structure QCompleter where
  widget : Nat
  popupVisible : Bool
  popupRow : Int
  completionPrefix : QString
  rowCount : Int
  completionData : Int → Int → QString

/-- The call `popup()->setCurrentIndex(completionModel()->index(row, 0))`: a
row outside the model gives the invalid index. -/
def QCompleter.setCurrentRow (c : QCompleter) (row : Int) : QCompleter :=
  { c with popupRow := if 0 ≤ row ∧ row < c.rowCount then row else -1 }

/-- The state of the `QPlainTextEdit` base object: `toPlainText()` and
`textCursor()`. -/
structure QPlainTextEdit where
  text : QString
  cursor : QTextCursor
  deriving DecidableEq, Repr

end Qt

open Qt

/-- The state of a `ChatEdit`: the base object, the address `this`, and `cc`,
`none` for the null pointer. -/
structure ChatEdit extends QPlainTextEdit where
  this : Nat
  cc : Option QCompleter

namespace ChatEdit

/-- The member `ChatEdit::insertToPos(completeText, begin)`. -/
def insertToPos (w : ChatEdit) (completeText : QString) (begin : Int) : ChatEdit :=
  if completeText.isEmpty then w
  else
    let begin := if begin < 0 then 0 else begin
    let cursor := w.cursor
    let end_ := cursor.position
    let cursor := cursor.setPosition w.text.length begin MoveMode.MoveAnchor
    let cursor := cursor.setPosition w.text.length end_ MoveMode.KeepAnchor
    let r :=
      if begin = 0 then cursor.insertText w.text (completeText ++ [58, 32])
      else cursor.insertText w.text (completeText ++ [32])
    { w with text := r.1, cursor := r.2 }

/-- The slot `ChatEdit::insertCompletion(index)`, the index given by its
validity, row and column; `none` is the dereference of a null `cc`. -/
def insertCompletion (w : ChatEdit) (valid : Bool) (row column : Int) : Option ChatEdit :=
  match w.cc with
  | none => none
  | some c =>
    if c.widget ≠ w.this ∨ !valid then some w
    else
      let nick := c.completionData row column
      let begin := w.cursor.position - (c.completionPrefix.length : Int)
      some (w.insertToPos nick begin)

/-- The handler `ChatEdit::keyPressEvent(e)`. `base` is
`QPlainTextEdit::keyPressEvent`, which works on the base object and the event;
`complete` is the member `complete()`, all of whose steps are calls on the
completer. The result is the widget and the event after the call, `none` when
the call dereferences `cc` while it is null. -/
def keyPressEvent (base : QPlainTextEdit → QKeyEvent → QPlainTextEdit × QKeyEvent)
    (complete : ChatEdit → Option ChatEdit) (w : ChatEdit) (e : QKeyEvent) :
    Option (ChatEdit × QKeyEvent) :=
  let ctrlOrShift : Bool := (e.modifiers &&& (ControlModifier ||| ShiftModifier)) != 0
  let hasModifier : Bool :=
    e.modifiers != NoModifier && e.modifiers != KeypadModifier && !ctrlOrShift
  if e.key = Key_Tab then
    if !w.text.isEmpty then
      match w.cc with
      | some c =>
        if c.popupVisible then
          let row := c.popupRow + 1
          let row := if c.rowCount = row then 0 else row
          some ({ w with cc := some (c.setCurrentRow row) }, e.accept)
        else some (w, e.accept)
      | none => some (w, e.accept)
    else some (w, e.ignore)
  else
    let popupShown : Bool :=
      match w.cc with
      | some c => c.popupVisible
      | none => false
    if popupShown ∧ (e.key = Key_Enter ∨ e.key = Key_Return ∨ e.key = Key_Escape
        ∨ e.key = Key_Backtab) then
      some (w, e.ignore)
    else
      let r : ChatEdit × QKeyEvent :=
        if !popupShown || !hasModifier then
          let b := base w.toQPlainTextEdit e
          ({ w with toQPlainTextEdit := b.1 }, b.2)
        else (w, e)
      if ctrlOrShift && r.2.text.isEmpty then some r
      else
        match r.1.cc with
        | none => none
        | some c =>
          if c.popupVisible && (hasModifier || r.2.text.isEmpty) then
            some ({ r.1 with cc := some { c with popupVisible := false } }, r.2)
          else if c.popupVisible then
            (complete r.1).map (fun w2 => (w2, r.2))
          else some r

end ChatEdit

/-! ## Auxiliary definitions for the proofs -/

namespace dcpp

/-- The bytes `strcmp` looks at: those in front of the first NUL. -/
def cut : Str → Str
  | [] => []
  | c :: cs => if c = 0 then [] else c :: cut cs

/-- The comparison both `FileLess` and `StringComp` branch to. -/
def nameCmp (caseSensitive : Bool) (stricmp : Str → Str → Int) (a b : Str) : Int :=
  if caseSensitive then strcmp (c_str a) (c_str b) else stricmp a b

/-- The ASCII lower-case form of a byte. -/
def toLowerAscii (c : Byte) : Byte := if 65 ≤ c.val ∧ c.val ≤ 90 then c + 32 else c

/-- Modelled from the spec: `Util::stricmp` is declared in `Util.h`, which is
not among the sources; the spec calls it the case-insensitive compare. This
instance compares the ASCII lower-case forms of its arguments with `strcmp`.
It only serves as a concrete value of the parameter `stricmp`. -/
def stricmpAscii (a b : Str) : Int :=
  strcmp (c_str (a.map toLowerAscii)) (c_str (b.map toLowerAscii))

/-- A file with the given name, hash 0, size 0 and parent 1. -/
def fileNamed (n : Str) : File := { name := n, tth := 0, size := 0, parent := 1 }

/-- A directory holding the files "A" and "b". -/
def sampleDirectory : Directory :=
  Directory.mk 1 [100] 0 0 [] [fileNamed [65], fileNamed [98]] 0

/-- A share state with an empty tree whose hash index holds the hashes 7 and 9. -/
def sampleShare : ShareManager :=
  { hits := 0, bzXmlFile := [], xmlListLen := 0, xmlRoot := 0, bzXmlListLen := 0,
    bzXmlRoot := 0, bzXmlRef := none, xmlDirty := false, forceXmlRefresh := false,
    refreshDirs := false, update := false, initial := true, listN := 0,
    refreshing := false, lastXmlUpdate := 0, lastFullUpdate := 0, cs := 0,
    directories := [], shares := [],
    tthIndex := [(7, { fileNamed [65] with tth := 7 }), (9, { fileNamed [98] with tth := 9 })],
    bloom := [] }

end dcpp

namespace ChatEdit

/-- A chat input without completer that holds "abc", the cursor behind "a". -/
def sampleEdit : ChatEdit :=
  { text := [97, 98, 99], cursor := { anchor := 1, position := 1 }, this := 1, cc := none }

/-- The key press of the letter "a" without modifiers. -/
def letterA : QKeyEvent :=
  { key := Key_A, modifiers := NoModifier, text := [97], accepted := false }

end ChatEdit


/-! ## The tree operations, after the specification

`ShareManager.h` declares `Directory::getSize`, `Directory::merge`,
`ShareManager::merge`, `rebuildIndices`, `updateIndices` and the two event
handlers; their bodies are in `ShareManager.cpp`, which is not among the
sources. The definitions of this section follow the specification's
description of them. A real path is taken as already translated through the
share map: an event names the virtual path of the owning directory (root name
first) and the file name. Sizes are integers; no 64-bit wrap-around is
modelled. -/

namespace dcpp

/-- Whether `std::set::insert(x)` inserts: the Boolean of the pair it returns. -/
def setInserted {α : Type} (less : α → α → Bool) : List α → α → Bool
  | [], _ => true
  | y :: ys, x => if less y x then setInserted less ys x else less x y

/-- The sum of the sizes of a list of files. -/
def sumFileSizes (fs : List File) : Int := (fs.map File.size).sum

/-- The sum of the cached sizes of the children in a `Map`. -/
def sumDirSizes (ds : List (Str × Directory)) : Int := (ds.map (fun p => p.2.size)).sum

/-- The bit of a type class in a `fileTypes` bitmap. -/
def typeBit (t : Nat) : Nat := (1 <<< t) % 2 ^ 32

/-- The bits of the type classes of a list of files, `getType` being
`ShareManager::getType`. -/
def typesOfFiles (getType : Str → Nat) (fs : List File) : Nat :=
  fs.foldl (fun acc f => acc ||| typeBit (getType f.name)) 0

/-- The union of the bitmaps of the children in a `Map`. -/
def typesOfDirs (ds : List (Str × Directory)) : Nat :=
  ds.foldl (fun acc p => acc ||| p.2.fileTypes) 0

/-- Modelled from the spec: the key equality `CaseStringEq` of `Directory::Map`
is declared in `Util.h`, which is not among the sources; "keys compared
case-insensitively". -/
def sameKey (stricmp : Str → Str → Int) (a b : Str) : Bool := stricmp a b == 0

namespace Directory

/-- Modelled from the spec: the body of `Directory::getSize` is missing;
"`size_of_subtree()`: returns cached `size`". -/
def getSize (d : Directory) : Int := d.size

/-- The size equation of one node: the cached size is the sum of the cached
sizes of the child directories plus the sum of the sizes of the files. -/
def sizeCached (d : Directory) : Prop :=
  d.size = sumDirSizes d.directories + sumFileSizes d.files

instance (d : Directory) : Decidable d.sizeCached := by
  unfold sizeCached
  infer_instance

end Directory

mutual
/-- A directory and all directories below it. -/
def Directory.subtree : Directory → List Directory
  | Directory.mk a n p s ds fs t => Directory.mk a n p s ds fs t :: subtreeList ds
/-- All directories in and below the children of a `Map`. -/
def subtreeList : List (Str × Directory) → List Directory
  | [] => []
  | (_, d) :: rest => d.subtree ++ subtreeList rest
end

/-- Every directory reachable from the roots. -/
def allDirectories (roots : List Directory) : List Directory :=
  roots.flatMap Directory.subtree

/-- The size equation at every directory reachable from the roots. -/
def SizesCached (roots : List Directory) : Prop :=
  ∀ d ∈ allDirectories roots, d.sizeCached

instance (roots : List Directory) : Decidable (SizesCached roots) := by
  unfold SizesCached
  infer_instance

mutual
/-- Modelled from the spec: the recomputation at the end of the missing
`Directory::merge`; "`fileTypes` and `size` are recomputed bottom-up after
merge". -/
def Directory.recompute (getType : Str → Nat) : Directory → Directory
  | Directory.mk a n p _ ds fs _ =>
    Directory.mk a n p (sumDirSizes (recomputeList getType ds) + sumFileSizes fs)
      (recomputeList getType ds) fs
      (typesOfDirs (recomputeList getType ds) ||| typesOfFiles getType fs)
/-- Modelled from the spec: the recomputation of the missing `Directory::merge`
in every child of a `Map`. -/
def recomputeList (getType : Str → Nat) : List (Str × Directory) → List (Str × Directory)
  | [] => []
  | (k, d) :: rest => (k, d.recompute getType) :: recomputeList getType rest
end

/-- The node with its parent pointer rewritten. -/
def Directory.setParent (newParent : Nat) : Directory → Directory
  | Directory.mk a n _ s ds fs t => Directory.mk a n newParent s ds fs t

/-- Modelled from the spec: the file part of the missing `Directory::merge`;
"Files present only in shadow are inserted; files present only in the live
root are removed; files present in both are kept (or replaced if hash
differs)". Each shadow file contributes the live file of that name when the
hashes agree and itself, owned by the live directory, otherwise. -/
def mergeFiles (caseSensitive : Bool) (stricmp : Str → Str → Int) (liveAddr : Nat)
    (live shadow : List File) : List File :=
  shadow.foldl
    (fun acc s =>
      setInsert (File.FileLess caseSensitive stricmp) acc
        (match live.get? (find_if (File.StringComp caseSensitive stricmp s.name) live) with
         | some l => if l.tth = s.tth then l else { s with parent := liveAddr }
         | none => { s with parent := liveAddr }))
    []

mutual
/-- Modelled from the spec: the structural part of the missing
`Directory::merge`, the node being the live directory and the argument the
shadow; "Children of `shadow_root` not present in the live root are moved under
the live root (parent pointer rewritten). Children present in both are merged
recursively", and the files as in `mergeFiles`. -/
def Directory.mergeInto (caseSensitive : Bool) (stricmp : Str → Str → Int) :
    Directory → Directory → Directory
  | Directory.mk a n p s ds fs t, shadow =>
    Directory.mk a n p s
      (mergeDirs caseSensitive stricmp ds shadow.directories ++
        (shadow.directories.filter
          (fun q => !(ds.any (fun c => sameKey stricmp c.1 q.1)))).map
          (fun q => (q.1, q.2.setParent a)))
      (mergeFiles caseSensitive stricmp a fs shadow.files) t
/-- Modelled from the spec: the child part of the missing `Directory::merge`;
every live child is merged with the shadow child of the same key when there is
one. -/
def mergeDirs (caseSensitive : Bool) (stricmp : Str → Str → Int) :
    List (Str × Directory) → List (Str × Directory) → List (Str × Directory)
  | [], _ => []
  | (k, c) :: rest, sh =>
    (k, match sh.find? (fun q => sameKey stricmp k q.1) with
        | some q => c.mergeInto caseSensitive stricmp q.2
        | none => c) :: mergeDirs caseSensitive stricmp rest sh
end

/-- Modelled from the spec: the missing `ShareManager::merge` on the list of
roots; "Locate the live root with the same virtual name", merge the shadow
into it and recompute; a shadow whose virtual name no live root carries
becomes a root. -/
def mergeRoots (caseSensitive : Bool) (stricmp : Str → Str → Int) (getType : Str → Nat) :
    List Directory → Directory → List Directory
  | [], shadow => [shadow.recompute getType]
  | r :: rest, shadow =>
    if sameKey stricmp r.name shadow.name then
      (r.mergeInto caseSensitive stricmp shadow).recompute getType :: rest
    else r :: mergeRoots caseSensitive stricmp getType rest shadow

namespace Directory

/-- Modelled from the spec: the insertion step of the missing handler of
`TTHDone`; the file goes into the `files` of the directory, whose cached size
and type bitmap are brought up to date; a file the set rejects changes
nothing. The second component is the type bit for the parent chain. -/
def insertFile (caseSensitive : Bool) (stricmp : Str → Str → Int) (getType : Str → Nat)
    (f : File) (d : Directory) : Directory × Nat :=
  if setInserted (File.FileLess caseSensitive stricmp) d.files f then
    (Directory.mk d.addr d.name d.parent (d.size + f.size) d.directories
      (setInsert (File.FileLess caseSensitive stricmp) d.files f)
      (d.fileTypes ||| typeBit (getType f.name)), typeBit (getType f.name))
  else (d, 0)

/-- Modelled from the spec: the removal step of the two missing event handlers;
the file at a position of `files` leaves the set and the cached size of the
directory is brought up to date. -/
def removeFileAt (i : Nat) (d : Directory) : Directory :=
  match d.files.get? i with
  | some old =>
    Directory.mk d.addr d.name d.parent (d.size - old.size) d.directories
      (d.files.eraseIdx i) d.fileTypes
  | none => d

/-- Modelled from the spec: what the missing handler of `TTHDone` does in the
owning directory; "If the file is already in the tree with a different hash,
remove the old entry. Insert a new File into the owning Directory". A file
already there with the same hash stays (the event is idempotent). -/
def hashDoneHere (caseSensitive : Bool) (stricmp : Str → Str → Int) (getType : Str → Nat)
    (name : Str) (size : Int) (tth : TTHValue) (d : Directory) : Directory × Nat :=
  match d.files.get? (d.findFile caseSensitive stricmp name) with
  | some old =>
    if old.tth = tth then (d, 0)
    else
      insertFile caseSensitive stricmp getType
        { name := name, tth := tth, size := size, parent := d.addr }
        (d.removeFileAt (d.findFile caseSensitive stricmp name))
  | none =>
    insertFile caseSensitive stricmp getType
      { name := name, tth := tth, size := size, parent := d.addr } d

/-- Modelled from the spec: what the missing handler of `FileMoved` does in
the owning directory; "remove any pre-existing entry at `real_path`". -/
def fileMovedHere (caseSensitive : Bool) (stricmp : Str → Str → Int) (name : Str)
    (d : Directory) : Directory × Nat :=
  (d.removeFileAt (d.findFile caseSensitive stricmp name), 0)

end Directory

mutual
/-- Modelled from the spec: the walk of the missing event handlers from a
directory down a path of child names, the edit `g` of the directory reached,
and on the way back "update parent chain `size` and `fileTypes`": every
ancestor takes over the change of size of its child and the type bit. `none`
when the path names a child that is not there. -/
def Directory.editAt (stricmp : Str → Str → Int) (g : Directory → Directory × Nat) :
    List Str → Directory → Option (Directory × Nat)
  | [], d => some (g d)
  | n :: path, Directory.mk a nm p s ds fs t =>
    match editChild stricmp g n path ds with
    | some (ds', delta, bits) => some (Directory.mk a nm p (s + delta) ds' fs (t ||| bits), bits)
    | none => none
/-- Modelled from the spec: the step of the walk of the missing event handlers
into the child with key `n`; the result carries the change of size of that
child and the type bit. -/
def editChild (stricmp : Str → Str → Int) (g : Directory → Directory × Nat) (n : Str)
    (path : List Str) : List (Str × Directory) → Option (List (Str × Directory) × Int × Nat)
  | [] => none
  | (k, c) :: rest =>
    if sameKey stricmp k n then
      match c.editAt stricmp g path with
      | some (c', bits) => some ((k, c') :: rest, c'.size - c.size, bits)
      | none => none
    else
      match editChild stricmp g n path rest with
      | some (rest', delta, bits) => some ((k, c) :: rest', delta, bits)
      | none => none
end

/-- Modelled from the spec: the start of the walk of the missing event handlers
at the root whose virtual name is the head of the path; the roots stay as they
are when the path does not resolve. -/
def editRoots (stricmp : Str → Str → Int) (g : Directory → Directory × Nat) :
    List Str → List Directory → List Directory
  | [], roots => roots
  | _ :: _, [] => []
  | n :: path, r :: rest =>
    if sameKey stricmp r.name n then
      match r.editAt stricmp g path with
      | some (r', _) => r' :: rest
      | none => r :: rest
    else r :: editRoots stricmp g (n :: path) rest

/-- Modelled from the spec: the tree part of the missing handler of `TTHDone`
(hash-done insert). -/
def hashDoneTree (caseSensitive : Bool) (stricmp : Str → Str → Int) (getType : Str → Nat)
    (roots : List Directory) (path : List Str) (name : Str) (size : Int) (tth : TTHValue) :
    List Directory :=
  editRoots stricmp (Directory.hashDoneHere caseSensitive stricmp getType name size tth)
    path roots

/-- Modelled from the spec: the tree part of the missing handler of
`FileMoved` (file-moved remove). -/
def fileMovedTree (caseSensitive : Bool) (stricmp : Str → Str → Int)
    (roots : List Directory) (path : List Str) (name : Str) : List Directory :=
  editRoots stricmp (Directory.fileMovedHere caseSensitive stricmp name) path roots

/-- The mutations of the tree the specification names: the merge of a shadow
tree, the hash-done insert and the file-moved remove. -/
inductive Mutation where
  | merge (shadow : Directory)
  | hashDone (path : List Str) (name : Str) (size : Int) (tth : TTHValue)
  | fileMoved (path : List Str) (name : Str)

/-- The roots after a mutation. -/
def Mutation.apply (caseSensitive : Bool) (stricmp : Str → Str → Int) (getType : Str → Nat)
    (roots : List Directory) : Mutation → List Directory
  | Mutation.merge shadow => mergeRoots caseSensitive stricmp getType roots shadow
  | Mutation.hashDone path name size tth =>
    hashDoneTree caseSensitive stricmp getType roots path name size tth
  | Mutation.fileMoved path name => fileMovedTree caseSensitive stricmp roots path name

/-- A shadow tree as a rescan hands it over, its cached sizes not yet
computed: the root "R" with the file "b" of 20 bytes and the child "D", which
holds the file "a" of 10 bytes. -/
def sampleShadow : Directory :=
  Directory.mk 1 [82] 0 0
    [([68], Directory.mk 2 [68] 1 0 [] [{ name := [97], tth := 5, size := 10, parent := 2 }] 0)]
    [{ name := [98], tth := 6, size := 20, parent := 1 }] 0

/-- An example run: the shadow tree is merged into the empty share, the file
"c" of 5 bytes with hash 77 arrives in "R/D", and "B" is moved away from "R". -/
def sampleMutations : List Mutation :=
  [Mutation.merge sampleShadow, Mutation.hashDone [[82], [68]] [99] 5 77,
    Mutation.fileMoved [[82]] [66]]

/-- The directory "D" at the end of the example run. -/
def sampleChildAfter : Directory :=
  Directory.mk 2 [68] 1 15 []
    [{ name := [97], tth := 5, size := 10, parent := 2 },
     { name := [99], tth := 77, size := 5, parent := 2 }] 2

/-- A share state whose tree is the example shadow tree with its sizes
computed, and whose hash index is still empty. -/
def sampleTreeShare : ShareManager :=
  { sampleShare with directories := [sampleShadow.recompute (fun _ => 1)], tthIndex := [] }

/-- Every file of every directory reachable from the roots. -/
def allFiles (roots : List Directory) : List File :=
  (allDirectories roots).flatMap Directory.files

/-- Every `files` set in the tree is strictly ascending under `FileLess`. -/
def FilesAscending (caseSensitive : Bool) (stricmp : Str → Str → Int)
    (roots : List Directory) : Prop :=
  ∀ d ∈ allDirectories roots,
    d.files.Pairwise (fun a b => File.FileLess caseSensitive stricmp a b = true)

instance (caseSensitive : Bool) (stricmp : Str → Str → Int) (roots : List Directory) :
    Decidable (FilesAscending caseSensitive stricmp roots) := by
  unfold FilesAscending
  infer_instance

mutual
/-- Modelled from the spec: the descent of the missing `getDirectory`; the
directory a path of child names leads to from a directory. -/
def Directory.descend (stricmp : Str → Str → Int) : List Str → Directory → Option Directory
  | [], d => some d
  | n :: path, Directory.mk _ _ _ _ ds _ _ => descendChild stricmp n path ds
/-- Modelled from the spec: the descent of the missing `getDirectory` into the
child with key `n`. -/
def descendChild (stricmp : Str → Str → Int) (n : Str) (path : List Str) :
    List (Str × Directory) → Option Directory
  | [] => none
  | (k, c) :: rest =>
    if sameKey stricmp k n then c.descend stricmp path
    else descendChild stricmp n path rest
end

/-- Modelled from the spec: the missing `getDirectory`, which finds the owning
directory of an event: the directory the path leads to below the root whose
virtual name is its head. -/
def findOwner (stricmp : Str → Str → Int) : List Str → List Directory → Option Directory
  | [], _ => none
  | _ :: _, [] => none
  | n :: path, r :: rest =>
    if sameKey stricmp r.name n then r.descend stricmp path
    else findOwner stricmp (n :: path) rest

/-- Modelled from the spec: the write of a slot of the hash index in the
missing `updateIndices`; "update the hash index (replacing any prior entry)",
"the later-inserted file wins the index slot". -/
def indexPut (index : List (TTHValue × File)) (f : File) : List (TTHValue × File) :=
  (f.tth, f) :: index.filter (fun e => decide (e.1 ≠ f.tth))

/-- Modelled from the spec: the hash index after a file has left the tree. The
index maps a hash to "the unique file with that hash currently in the tree",
so the slot that holds the removed file goes with it. -/
def indexDrop (index : List (TTHValue × File)) (old : File) : List (TTHValue × File) :=
  index.filter (fun e => decide (e ≠ (old.tth, old)))

namespace ShareManager

/-- Modelled from the spec: the missing `updateIndices(dir, i)` for the file
the iterator `i` points to; it takes the slot of its hash and its name goes
into the bloom filter, `bloomAdd` being the insertion of `BloomFilter`. -/
def updateIndices (bloomAdd : List Bool → Str → List Bool) (s : ShareManager) (f : File) :
    ShareManager :=
  { s with tthIndex := indexPut s.tthIndex f, bloom := bloomAdd s.bloom f.name }

/-- Modelled from the spec: the missing `updateIndices(dir)`, which enters
every file in and below a directory. -/
def updateIndicesDir (bloomAdd : List Bool → Str → List Bool) (s : ShareManager)
    (d : Directory) : ShareManager :=
  (d.subtree.flatMap Directory.files).foldl (updateIndices bloomAdd) s

/-- Modelled from the spec: the missing `rebuildIndices`; "it rebuilds the
hash index and bloom filter from the live tree in one pass". -/
def rebuildIndices (bloomAdd : List Bool → Str → List Bool) (s : ShareManager) :
    ShareManager :=
  s.directories.foldl (updateIndicesDir bloomAdd)
    { s with tthIndex := [], bloom := s.bloom.map (fun _ => false) }

/-- Modelled from the spec: the missing handler of `TTHDone`. "If the file is
already in the tree with a different hash, remove the old entry. Insert a new
File into the owning Directory, update parent chain `size` and `fileTypes`,
update the hash index (replacing any prior entry), add the filename's tokens
to the bloom filter, mark the XML dirty." A path that is not shared leaves the
state as it is. -/
def hashDone (caseSensitive : Bool) (stricmp : Str → Str → Int) (getType : Str → Nat)
    (bloomAdd : List Bool → Str → List Bool) (s : ShareManager) (path : List Str)
    (name : Str) (size : Int) (tth : TTHValue) : ShareManager :=
  match findOwner stricmp path s.directories with
  | none => s
  | some d =>
    match d.files.get? (d.findFile caseSensitive stricmp name) with
    | some old =>
      if old.tth = tth then (updateIndices bloomAdd s old).setDirty
      else
        (updateIndices bloomAdd
          { s with
            directories :=
              hashDoneTree caseSensitive stricmp getType s.directories path name size tth,
            tthIndex := indexDrop s.tthIndex old }
          { name := name, tth := tth, size := size, parent := d.addr }).setDirty
    | none =>
      (updateIndices bloomAdd
        { s with
          directories :=
            hashDoneTree caseSensitive stricmp getType s.directories path name size tth }
        { name := name, tth := tth, size := size, parent := d.addr }).setDirty

/-- Modelled from the spec: the missing handler of `FileMoved`; "remove any
pre-existing entry at `real_path`. It will be reinserted on the next
`hash_done`." -/
def fileMoved (caseSensitive : Bool) (stricmp : Str → Str → Int) (s : ShareManager)
    (path : List Str) (name : Str) : ShareManager :=
  match findOwner stricmp path s.directories with
  | none => s
  | some d =>
    match d.files.get? (d.findFile caseSensitive stricmp name) with
    | some old =>
      { s with
        directories := fileMovedTree caseSensitive stricmp s.directories path name,
        tthIndex := indexDrop s.tthIndex old }
    | none => s

end ShareManager

/-- The states of the share that `rebuildIndices`, `updateIndices` and the
event sink reach: the state `rebuildIndices` leaves on any tree whose `files`
sets are strictly ascending, and from a reached state the state after
`updateIndices` for a file of a directory of the tree, after a hash-done event
and after a file-moved event. -/
inductive Reached (caseSensitive : Bool) (stricmp : Str → Str → Int) (getType : Str → Nat)
    (bloomAdd : List Bool → Str → List Bool) : ShareManager → Prop where
  | rebuildIndices (s : ShareManager)
      (hs : FilesAscending caseSensitive stricmp s.directories) :
      Reached caseSensitive stricmp getType bloomAdd (s.rebuildIndices bloomAdd)
  | updateIndices (s : ShareManager) (d : Directory) (f : File)
      (hr : Reached caseSensitive stricmp getType bloomAdd s)
      (hd : d ∈ allDirectories s.directories) (hf : f ∈ d.files) :
      Reached caseSensitive stricmp getType bloomAdd (s.updateIndices bloomAdd f)
  | hashDone (s : ShareManager) (path : List Str) (name : Str) (size : Int) (tth : TTHValue)
      (hr : Reached caseSensitive stricmp getType bloomAdd s) :
      Reached caseSensitive stricmp getType bloomAdd
        (s.hashDone caseSensitive stricmp getType bloomAdd path name size tth)
  | fileMoved (s : ShareManager) (path : List Str) (name : Str)
      (hr : Reached caseSensitive stricmp getType bloomAdd s) :
      Reached caseSensitive stricmp getType bloomAdd
        (s.fileMoved caseSensitive stricmp path name)

/-- How a directory of the tree and the directory in its place after an edit of
the owner `o` relate: the files are the same, or the directory is the owner
and the files are those the edit leaves. -/
def EditRel (g : Directory → Directory × Nat) (o : Directory) (x x' : Directory) : Prop :=
  x'.files = x.files ∨ (x = o ∧ x'.files = (g o).1.files)

/-- Every entry of a hash index pairs a hash with a file that has that hash and
is in the `files` of a directory reachable from the roots. -/
def IndexOk (roots : List Directory) (index : List (TTHValue × File)) : Prop :=
  ∀ e ∈ index, e.2.tth = e.1 ∧ e.2 ∈ allFiles roots

end dcpp

/-! # Theorems -/

namespace dcpp

/-! ## Laws of `strcmp` -/

theorem strcmp_flip (a b : List Byte) : strcmp a b < 0 ↔ 0 < strcmp b a := by
  induction a generalizing b with
  | nil => cases b <;> simp [strcmp]
  | cons x xs ih =>
    cases b with
    | nil => simp [strcmp]
    | cons y ys =>
      by_cases hxy : x = y
      · subst hxy
        by_cases hx : x = 0
        · simp [strcmp, hx]
        · simp [strcmp, hx, ih]
      · have hyx : ¬ y = x := fun h => hxy h.symm
        have hv : x.val ≠ y.val := fun h => hxy (Fin.ext h)
        simp only [strcmp, ne_eq, hxy, hyx, not_false_eq_true, if_true]
        omega

theorem strcmp_lt_trans (a b c : List Byte) :
    strcmp a b < 0 → strcmp b c < 0 → strcmp a c < 0 := by
  induction a generalizing b c with
  | nil => cases b <;> simp [strcmp]
  | cons x xs ih =>
    cases b with
    | nil => simp [strcmp]
    | cons y ys =>
      cases c with
      | nil => simp [strcmp]
      | cons z zs =>
        intro h1 h2
        by_cases hxy : x = y
        · subst hxy
          by_cases hx : x = 0
          · simp [strcmp, hx] at h1
          · by_cases hxz : x = z
            · subst hxz
              simp only [strcmp, ne_eq, not_true_eq_false, if_false, hx] at h1 h2 ⊢
              exact ih _ _ h1 h2
            · simp only [strcmp, ne_eq, hxz, not_false_eq_true, if_true] at h2 ⊢
              exact h2
        · have hv : x.val ≠ y.val := fun h => hxy (Fin.ext h)
          simp only [strcmp, ne_eq, hxy, not_false_eq_true, if_true] at h1
          by_cases hyz : y = z
          · subst hyz
            simp only [strcmp, ne_eq, hxy, not_false_eq_true, if_true]
            exact h1
          · simp only [strcmp, ne_eq, hyz, not_false_eq_true, if_true] at h2
            have hxz : ¬ x = z := by
              intro h; subst h; omega
            simp only [strcmp, ne_eq, hxz, not_false_eq_true, if_true]
            omega

theorem strcmp_c_str_eq_zero (a b : Str) :
    strcmp (c_str a) (c_str b) = 0 ↔ cut a = cut b := by
  have hz : ((0 : Byte).val : Int) = 0 := rfl
  induction a generalizing b with
  | nil =>
    cases b with
    | nil => simp [strcmp, c_str, cut]
    | cons y ys =>
      by_cases hy : y = 0
      · simp [strcmp, c_str, cut, hy]
      · have hy2 : ¬ (0 : Byte) = y := fun h => hy h.symm
        have hv : y.val ≠ 0 := fun h => hy (Fin.ext h)
        simp only [c_str, List.nil_append, List.cons_append, strcmp, ne_eq, hy2,
          not_false_eq_true, if_true, cut, hy, if_false]
        constructor
        · intro h; exfalso; omega
        · intro h; cases h
  | cons x xs ih =>
    cases b with
    | nil =>
      by_cases hx : x = 0
      · simp [strcmp, c_str, cut, hx]
      · have hv : x.val ≠ 0 := fun h => hx (Fin.ext h)
        simp only [c_str, List.nil_append, List.cons_append, strcmp, ne_eq, hx,
          not_false_eq_true, if_true, cut, if_false]
        constructor
        · intro h; exfalso; omega
        · intro h; cases h
    | cons y ys =>
      by_cases hxy : x = y
      · subst hxy
        by_cases hx : x = 0
        · simp [strcmp, c_str, cut, hx]
        · have := ih ys
          simp only [c_str] at this
          simp [strcmp, c_str, cut, hx, this]
      · have hv : x.val ≠ y.val := fun h => hxy (Fin.ext h)
        simp only [c_str, List.cons_append, strcmp, ne_eq, hxy, not_false_eq_true, if_true, cut]
        constructor
        · intro h; omega
        · intro h
          exfalso
          by_cases hx : x = 0
          · by_cases hy : y = 0
            · exact hxy (hx.trans hy.symm)
            · simp [hx, hy] at h
          · by_cases hy : y = 0
            · simp [hx, hy] at h
            · simp [hx, hy] at h
              exact hxy h.1

/-- The function `strcmp` on two `c_str()` arrays is a three-way comparison. -/
theorem strcmp_threeWay : ThreeWay (fun a b => strcmp (c_str a) (c_str b)) := by
  refine ⟨fun a b => strcmp_flip _ _, fun a b c => strcmp_lt_trans _ _ _, ?_⟩
  intro a b c h1 h2
  rw [strcmp_c_str_eq_zero] at h1 h2 ⊢
  exact h1.trans h2

/-! ## Laws of the comparators -/

theorem nameCmp_threeWay (caseSensitive : Bool) (stricmp : Str → Str → Int)
    (h : caseSensitive = false → ThreeWay stricmp) :
    ThreeWay (nameCmp caseSensitive stricmp) := by
  cases caseSensitive with
  | true => simpa [nameCmp] using strcmp_threeWay
  | false => simpa [nameCmp] using h rfl

theorem FileLess_iff (cs : Bool) (st : Str → Str → Int) (a b : File) :
    File.FileLess cs st a b = true ↔ nameCmp cs st a.name b.name < 0 := by
  cases cs <;> simp [File.FileLess, nameCmp]

theorem StringComp_iff (cs : Bool) (st : Str → Str → Int) (n : Str) (b : File) :
    File.StringComp cs st n b = true ↔ nameCmp cs st n b.name = 0 := by
  cases cs <;> simp [File.StringComp, nameCmp]

theorem File_eq_iff (cs : Bool) (st : Str → Str → Int) (a b : File) :
    File.eq cs st a b = true ↔ a.parent = b.parent ∧ nameCmp cs st a.name b.name = 0 := by
  cases cs <;> simp [File.eq, nameCmp]

theorem ThreeWay.refl {cmp : Str → Str → Int} (h : ThreeWay cmp) (a : Str) : cmp a a = 0 := by
  have h1 := h.1 a a
  omega

theorem ThreeWay.symm {cmp : Str → Str → Int} (h : ThreeWay cmp) {a b : Str}
    (hab : cmp a b = 0) : cmp b a = 0 := by
  have h1 := h.1 a b
  have h2 := h.1 b a
  omega

theorem ThreeWay.lt_of_lt_of_eq {cmp : Str → Str → Int} (h : ThreeWay cmp) {a b c : Str}
    (hab : cmp a b < 0) (hbc : cmp b c = 0) : cmp a c < 0 := by
  rcases lt_trichotomy (cmp a c) 0 with hlt | heq | hgt
  · exact hlt
  · have hba : cmp b a = 0 := h.2.2 b c a hbc (h.symm heq)
    have := h.symm hba
    omega
  · have hca : cmp c a < 0 := (h.1 c a).2 hgt
    have hcb : cmp c b < 0 := h.2.1 c a b hca hab
    have := h.symm hbc
    omega

theorem ThreeWay.lt_of_eq_of_lt {cmp : Str → Str → Int} (h : ThreeWay cmp) {a b c : Str}
    (hab : cmp a b = 0) (hbc : cmp b c < 0) : cmp a c < 0 := by
  rcases lt_trichotomy (cmp a c) 0 with hlt | heq | hgt
  · exact hlt
  · have hbc2 : cmp b c = 0 := h.2.2 b a c (h.symm hab) heq
    omega
  · have hca : cmp c a < 0 := (h.1 c a).2 hgt
    have hba : cmp b a < 0 := h.2.1 b c a hbc hca
    have := h.symm hab
    omega

/-! ## Laws of the ordered set -/

theorem mem_setInsert {α : Type} (less : α → α → Bool) (s : List α) (x y : α)
    (h : y ∈ setInsert less s x) : y = x ∨ y ∈ s := by
  induction s with
  | nil => simpa [setInsert] using h
  | cons z zs ih =>
    simp only [setInsert] at h
    split at h
    · rcases List.mem_cons.1 h with h | h
      · exact Or.inr (h ▸ List.mem_cons_self _ _)
      · rcases ih h with h | h
        · exact Or.inl h
        · exact Or.inr (List.mem_cons_of_mem _ h)
    · split at h
      · rcases List.mem_cons.1 h with h | h
        · exact Or.inl h
        · exact Or.inr h
      · exact Or.inr h

theorem mem_setInsert_of_mem {α : Type} (less : α → α → Bool) (s : List α) (x y : α)
    (h : y ∈ s) : y ∈ setInsert less s x := by
  induction s with
  | nil => cases h
  | cons z zs ih =>
    simp only [setInsert]
    split
    · rcases List.mem_cons.1 h with h | h
      · exact h ▸ List.mem_cons_self _ _
      · exact List.mem_cons_of_mem _ (ih h)
    · split
      · exact List.mem_cons_of_mem _ h
      · exact h

theorem setInsert_pairwise {α : Type} (less : α → α → Bool)
    (trans : ∀ a b c, less a b = true → less b c = true → less a c = true)
    (s : List α) (x : α) (hs : s.Pairwise (fun a b => less a b = true)) :
    (setInsert less s x).Pairwise (fun a b => less a b = true) := by
  induction s with
  | nil => simp [setInsert]
  | cons z zs ih =>
    rw [List.pairwise_cons] at hs
    simp only [setInsert]
    split
    · rename_i hzx
      rw [List.pairwise_cons]
      refine ⟨?_, ih hs.2⟩
      intro y hy
      rcases mem_setInsert less zs x y hy with h | h
      · exact h ▸ hzx
      · exact hs.1 y h
    · split
      · rename_i hxz
        rw [List.pairwise_cons]
        refine ⟨?_, List.pairwise_cons.2 hs⟩
        intro y hy
        rcases List.mem_cons.1 hy with h | h
        · exact h ▸ hxz
        · exact trans _ _ _ hxz (hs.1 y h)
      · exact List.pairwise_cons.2 hs

theorem foldl_setInsert_pairwise {α : Type} (less : α → α → Bool)
    (trans : ∀ a b c, less a b = true → less b c = true → less a c = true)
    (xs : List α) (s : List α) (hs : s.Pairwise (fun a b => less a b = true)) :
    (xs.foldl (setInsert less) s).Pairwise (fun a b => less a b = true) := by
  induction xs generalizing s with
  | nil => simpa using hs
  | cons x xs ih => exact ih _ (setInsert_pairwise less trans s x hs)

theorem FileLess_trans (cs : Bool) (st : Str → Str → Int) (h : cs = false → ThreeWay st)
    (a b c : File) (hab : File.FileLess cs st a b = true) (hbc : File.FileLess cs st b c = true) :
    File.FileLess cs st a c = true := by
  rw [FileLess_iff] at *
  exact (nameCmp_threeWay cs st h).2.1 _ _ _ hab hbc

/-- In a strictly ascending list two different positions hold files whose
names differ under the policy. -/
theorem pairwise_names_differ (cs : Bool) (st : Str → Str → Int) (h : cs = false → ThreeWay st)
    (s : List File) (hs : s.Pairwise (fun a b => File.FileLess cs st a b = true))
    (i j : Nat) (hi : i < s.length) (hj : j < s.length) (hij : i ≠ j) :
    nameCmp cs st s[i].name s[j].name ≠ 0 := by
  have tw := nameCmp_threeWay cs st h
  rw [List.pairwise_iff_getElem] at hs
  rcases Nat.lt_or_gt_of_ne hij with hlt | hgt
  · have := (FileLess_iff cs st _ _).1 (hs i j hi hj hlt)
    omega
  · have := (FileLess_iff cs st _ _).1 (hs j i hj hi hgt)
    intro h0
    have := tw.symm h0
    omega


theorem stricmpAscii_threeWay : ThreeWay stricmpAscii := by
  obtain ⟨h1, h2, h3⟩ := strcmp_threeWay
  exact ⟨fun a b => h1 _ _, fun a b c => h2 _ _ _, fun a b c => h3 _ _ _⟩

/-! ## Laws of `find_if` -/

theorem find_if_le {α : Type} (p : α → Bool) (l : List α) : find_if p l ≤ l.length := by
  induction l with
  | nil => simp [find_if]
  | cons x xs ih =>
    simp only [find_if]
    split
    · simp
    · simp; omega

theorem find_if_spec {α : Type} (p : α → Bool) (l : List α) (h : find_if p l < l.length) :
    p l[find_if p l] = true := by
  induction l with
  | nil => simp at h
  | cons x xs ih =>
    by_cases hx : p x = true
    · simp [find_if, hx]
    · have hlt : find_if p xs < xs.length := by
        simp [find_if, hx] at h
        exact h
      simp [find_if, hx, ih hlt]

theorem find_if_before {α : Type} (p : α → Bool) (l : List α) (j : Nat) (hj : j < find_if p l)
    (hl : j < l.length) : p l[j] = false := by
  induction l generalizing j with
  | nil => simp at hl
  | cons x xs ih =>
    by_cases hx : p x = true
    · simp [find_if, hx] at hj
    · cases j with
      | zero => simpa using hx
      | succ k =>
        simp only [find_if, hx, Bool.false_eq_true, if_false] at hj
        simp only [List.getElem_cons_succ]
        exact ih k (by omega) (by simpa using hl)

theorem find_if_eq_length {α : Type} (p : α → Bool) (l : List α) :
    find_if p l = l.length ↔ ∀ x ∈ l, p x = false := by
  induction l with
  | nil => simp [find_if]
  | cons x xs ih =>
    by_cases hx : p x = true
    · simp [find_if, hx]
    · simp [find_if, hx, ih]

/-! ## The ordered-set lookup -/

theorem setFind_cons_of_less {α : Type} (less : α → α → Bool) (y : α) (ys : List α) (x : α)
    (h : less y x = true) : setFind less (y :: ys) x = setFind less ys x + 1 := by
  simp only [setFind, lower_bound, h, if_true, List.get?_cons_succ, List.length_cons]
  cases ys.get? (lower_bound less x ys) with
  | none => rfl
  | some z => by_cases hz : less x z = true <;> simp [hz]

theorem findFile_eq_setFind_aux (cs : Bool) (st : Str → Str → Int)
    (h : cs = false → ThreeWay st) (n : Str) (probe : File) (hp : probe.name = n)
    (s : List File) (hs : s.Pairwise (fun a b => File.FileLess cs st a b = true)) :
    find_if (File.StringComp cs st n) s = setFind (File.FileLess cs st) s probe := by
  have tw := nameCmp_threeWay cs st h
  induction s with
  | nil => simp [find_if, setFind, lower_bound]
  | cons y ys ih =>
    rw [List.pairwise_cons] at hs
    by_cases hyp : File.FileLess cs st y probe = true
    · rw [setFind_cons_of_less _ _ _ _ hyp, ← ih hs.2]
      have hlt := (FileLess_iff cs st _ _).1 hyp
      rw [hp] at hlt
      have hny : ¬ File.StringComp cs st n y = true := by
        rw [StringComp_iff]
        intro h0
        have := tw.symm h0
        omega
      simp [find_if, hny]
    · by_cases hpy : File.FileLess cs st probe y = true
      · have hlt := (FileLess_iff cs st _ _).1 hpy
        rw [hp] at hlt
        have hall : ∀ z ∈ y :: ys, File.StringComp cs st n z = false := by
          intro z hz
          have hnz : nameCmp cs st n z.name < 0 := by
            rcases List.mem_cons.1 hz with rfl | hz
            · exact hlt
            · exact tw.2.1 _ _ _ hlt ((FileLess_iff cs st _ _).1 (hs.1 z hz))
          cases hsc : File.StringComp cs st n z with
          | false => rfl
          | true =>
            have := (StringComp_iff cs st n z).1 hsc
            omega
        rw [(find_if_eq_length _ _).2 hall]
        simp [setFind, lower_bound, hyp, hpy]
      · have h1 : ¬ nameCmp cs st y.name n < 0 := by
          rw [← hp, ← FileLess_iff]; exact hyp
        have h2 : ¬ nameCmp cs st n y.name < 0 := by
          rw [← hp, ← FileLess_iff]; exact hpy
        have h3 := tw.1 y.name n
        have h4 := tw.1 n y.name
        have h0 : File.StringComp cs st n y = true := by
          rw [StringComp_iff]; omega
        simp [find_if, h0, setFind, lower_bound, hyp, hpy]

/-! ## The claims about `Directory::File` and `Directory::files` -/

/-- Claim C1. Under a fixed case policy (with `Util::stricmp` a three-way
comparison when the policy is case-insensitive), the `files` set that results
from any sequence of insertions into an empty set is strictly ascending under
`FileLess`, two different positions never hold names that compare equal
under the policy, and no name is matched by `StringComp` at two different
positions. -/
theorem files_strictly_ascending_after_insertions (caseSensitive : Bool)
    (stricmp : Str → Str → Int) (h : caseSensitive = false → ThreeWay stricmp)
    (inserted : List File) :
    let files := inserted.foldl (setInsert (File.FileLess caseSensitive stricmp)) []
    files.Pairwise (fun a b => File.FileLess caseSensitive stricmp a b = true) ∧
    (∀ (i j : Nat) (hi : i < files.length) (hj : j < files.length), i ≠ j →
      (if caseSensitive then strcmp (c_str files[i].name) (c_str files[j].name)
        else stricmp files[i].name files[j].name) ≠ 0) ∧
    (∀ (n : Str) (i j : Nat) (hi : i < files.length) (hj : j < files.length),
      File.StringComp caseSensitive stricmp n files[i] = true →
      File.StringComp caseSensitive stricmp n files[j] = true → i = j) := by
  intro files
  have tw := nameCmp_threeWay caseSensitive stricmp h
  have hp : files.Pairwise (fun a b => File.FileLess caseSensitive stricmp a b = true) :=
    foldl_setInsert_pairwise _ (FileLess_trans caseSensitive stricmp h) inserted []
      List.Pairwise.nil
  refine ⟨hp, ?_, ?_⟩
  · intro i j hi hj hij
    exact pairwise_names_differ caseSensitive stricmp h files hp i j hi hj hij
  · intro n i j hi hj h1 h2
    by_contra hij
    rw [StringComp_iff] at h1 h2
    exact pairwise_names_differ caseSensitive stricmp h files hp i j hi hj hij
      (tw.2.2 _ _ _ (tw.symm h1) h2)

/-- Claim C2. The position `findFile` returns lies within `files` or is the
end position; when it lies within, the file there has a name equal to the
argument under the policy (`strcmp == 0` or `stricmp == 0`) and no file in
front of it has; and it is the end position exactly when no file of `files`
has such a name. -/
theorem findFile_is_first_match (caseSensitive : Bool) (stricmp : Str → Str → Int)
    (d : Directory) (aFile : Str) :
    let i := d.findFile caseSensitive stricmp aFile
    let equal := fun (f : File) =>
      if caseSensitive then strcmp (c_str aFile) (c_str f.name) = 0
      else stricmp aFile f.name = 0
    i ≤ d.files.length ∧
    (∀ hi : i < d.files.length, equal d.files[i]) ∧
    (∀ (j : Nat) (hj : j < d.files.length), j < i → ¬ equal d.files[j]) ∧
    (i = d.files.length ↔ ∀ f ∈ d.files, ¬ equal f) := by
  intro i equal
  have heq : ∀ f : File, equal f ↔ File.StringComp caseSensitive stricmp aFile f = true := by
    intro f
    simp only [equal]
    cases caseSensitive <;> simp [File.StringComp]
  refine ⟨find_if_le _ _, ?_, ?_, ?_⟩
  · intro hi
    exact (heq _).2 (find_if_spec _ _ hi)
  · intro j hj hji
    rw [heq]
    have := find_if_before (File.StringComp caseSensitive stricmp aFile) d.files j hji hj
    simp [this]
  · have := find_if_eq_length (File.StringComp caseSensitive stricmp aFile) d.files
    simp only [i, Directory.findFile]
    rw [this]
    constructor
    · intro hall f hf
      rw [heq]
      simp [hall f hf]
    · intro hall f hf
      have := hall f hf
      rw [heq] at this
      simpa using this

/-- Claim C8. On a `files` set that is strictly ascending under `FileLess`, the
linear scan of `findFile` and the ordered-set lookup of a probe file with the
same name return the same position, so one finds a file iff the other does and
it is the same file. `FileLess` is irreflexive and transitive, its equivalence
is transitive, and that equivalence is what `StringComp` tests and, for files
of one parent, what `operator==` tests. -/
theorem findFile_agrees_with_set_lookup (caseSensitive : Bool) (stricmp : Str → Str → Int)
    (h : caseSensitive = false → ThreeWay stricmp) (d : Directory)
    (hs : d.files.Pairwise (fun a b => File.FileLess caseSensitive stricmp a b = true))
    (n : Str) (probe : File) (hp : probe.name = n) :
    let less := File.FileLess caseSensitive stricmp
    let equiv := fun (a b : File) => less a b = false ∧ less b a = false
    d.findFile caseSensitive stricmp n = setFind less d.files probe ∧
    (d.findFile caseSensitive stricmp n < d.files.length ↔
      setFind less d.files probe < d.files.length) ∧
    (∀ a, less a a = false) ∧
    (∀ a b c, less a b = true → less b c = true → less a c = true) ∧
    (∀ a b c, equiv a b → equiv b c → equiv a c) ∧
    (∀ a b, equiv a b ↔ File.StringComp caseSensitive stricmp a.name b = true) ∧
    (∀ a b, a.parent = b.parent → (equiv a b ↔ File.eq caseSensitive stricmp a b = true)) := by
  intro less equiv
  have tw := nameCmp_threeWay caseSensitive stricmp h
  have hagree := findFile_eq_setFind_aux caseSensitive stricmp h n probe hp d.files hs
  have hless : ∀ a b : File, less a b = false ↔ ¬ nameCmp caseSensitive stricmp a.name b.name < 0 := by
    intro a b
    rw [← FileLess_iff]
    simp [less]
  have hequiv : ∀ a b : File, equiv a b ↔ nameCmp caseSensitive stricmp a.name b.name = 0 := by
    intro a b
    simp only [equiv, hless]
    have := tw.1 a.name b.name
    have := tw.1 b.name a.name
    omega
  refine ⟨hagree, ?_, ?_, ?_, ?_, ?_, ?_⟩
  · simp only [Directory.findFile]
    rw [hagree]
  · intro a
    rw [hless]
    have := tw.refl a.name
    omega
  · intro a b c
    exact FileLess_trans caseSensitive stricmp h a b c
  · intro a b c hab hbc
    rw [hequiv] at *
    exact tw.2.2 _ _ _ hab hbc
  · intro a b
    rw [hequiv, StringComp_iff]
  · intro a b hpar
    rw [hequiv, File_eq_iff]
    simp [hpar]


/-- Witness for claim C1: the case-insensitive policy with the ASCII instance
of `stricmp`; inserting "b", "A", "a" leaves the set "A", "b". -/
theorem files_strictly_ascending_after_insertions_witness :
    ThreeWay stricmpAscii ∧
    [fileNamed [98], fileNamed [65], fileNamed [97]].foldl
      (setInsert (File.FileLess false stricmpAscii)) [] = [fileNamed [65], fileNamed [98]] ∧
    ([fileNamed [98], fileNamed [65], fileNamed [97]].foldl
      (setInsert (File.FileLess false stricmpAscii)) []).Pairwise
      (fun a b => File.FileLess false stricmpAscii a b = true) :=
  ⟨stricmpAscii_threeWay, by decide,
    (files_strictly_ascending_after_insertions false stricmpAscii
      (fun _ => stricmpAscii_threeWay)
      [fileNamed [98], fileNamed [65], fileNamed [97]]).1⟩

/-- Witness for claim C2: in the directory holding "A" and "b", the
case-insensitive scan for "B" stops at position 1, and the file there matches. -/
theorem findFile_is_first_match_witness :
    sampleDirectory.findFile false stricmpAscii [66] = 1 ∧
    stricmpAscii [66] [98] = 0 :=
  ⟨by decide,
    (findFile_is_first_match false stricmpAscii sampleDirectory [66]).2.1 (by decide)⟩

/-- Witness for claim C8: in the directory holding "A" and "b", scan and set
lookup for "B" agree under the case-insensitive policy. -/
theorem findFile_agrees_with_set_lookup_witness :
    sampleDirectory.findFile false stricmpAscii [66] =
      setFind (File.FileLess false stricmpAscii) sampleDirectory.files (fileNamed [66]) ∧
    setFind (File.FileLess false stricmpAscii) sampleDirectory.files (fileNamed [66]) = 1 :=
  ⟨(findFile_agrees_with_set_lookup false stricmpAscii (fun _ => stricmpAscii_threeWay)
      sampleDirectory (by decide) [66] (fileNamed [66]) rfl).1, by decide⟩


/-! ## The claims about `hasType`, `isTTHShared` and `setDirty` -/

theorem and_one_shiftLeft_ne_zero (n t : Nat) : (n &&& (1 <<< t) ≠ 0) ↔ n.testBit t = true := by
  rw [Nat.one_shiftLeft, Nat.and_two_pow]
  cases h : n.testBit t <;> simp

/-- Claim C3. For a type code below 32, `hasType` is defined and holds exactly
when the code is `TYPE_ANY` or the bit of that number is set in `fileTypes`;
and `hasType(TYPE_ANY)` holds for every directory, whatever its bitmap and
whatever the value of `TYPE_ANY`. -/
theorem hasType_iff_any_or_bit (TYPE_ANY : Nat) (d : Directory) (t : Nat) (ht : t < 32) :
    d.hasType TYPE_ANY t = some (decide (t = TYPE_ANY ∨ d.fileTypes.testBit t = true)) ∧
    d.hasType TYPE_ANY TYPE_ANY = some true := by
  have hmod : (1 <<< t) % 2 ^ 32 = 1 <<< t := by
    apply Nat.mod_eq_of_lt
    rw [Nat.one_shiftLeft]
    exact Nat.pow_lt_pow_right (by decide) ht
  constructor
  · by_cases h : t = TYPE_ANY
    · simp [Directory.hasType, h]
    · have hb := and_one_shiftLeft_ne_zero d.fileTypes t
      simp only [Directory.hasType, h, if_false, ht, if_true, hmod, false_or]
      congr 1
      cases hbit : d.fileTypes.testBit t with
      | true => simpa [bne_iff_ne] using hb.2 hbit
      | false =>
        have : ¬ (d.fileTypes &&& 1 <<< t ≠ 0) := by rw [hb, hbit]; simp
        simpa [bne_iff_ne] using this
  · simp [Directory.hasType]

/-- Witness for claim C3: with `TYPE_ANY` 0 and the bitmap 0b100, type 2 is
present and type 3 is not. -/
theorem hasType_iff_any_or_bit_witness :
    (Directory.mk 1 [] 0 0 [] [] 4).hasType 0 2 = some true ∧
    (Directory.mk 1 [] 0 0 [] [] 4).hasType 0 3 = some false :=
  ⟨(hasType_iff_any_or_bit 0 (Directory.mk 1 [] 0 0 [] [] 4) 2 (by decide)).1,
   (hasType_iff_any_or_bit 0 (Directory.mk 1 [] 0 0 [] [] 4) 3 (by decide)).1⟩

theorem find_if_ne_length {α : Type} (p : α → Bool) (l : List α) :
    find_if p l ≠ l.length ↔ ∃ x ∈ l, p x = true := by
  rw [Ne, find_if_eq_length]
  simp

/-- Claim C6. The call `isTTHShared(h)` returns true exactly when `tthIndex`
has an entry with key `h`, and the state it leaves behind is the state it
started from, `tthIndex` and every other member included. -/
theorem isTTHShared_iff_indexed (s : ShareManager) (h : TTHValue) :
    ((s.isTTHShared h).1 = true ↔ ∃ f, (h, f) ∈ s.tthIndex) ∧
    (s.isTTHShared h).2 = s := by
  constructor
  · simp only [ShareManager.isTTHShared, ShareManager.lock, mapFind, bne_iff_ne,
      find_if_ne_length]
    constructor
    · rintro ⟨⟨k, f⟩, hmem, hk⟩
      simp only [decide_eq_true_eq] at hk
      exact ⟨f, hk ▸ hmem⟩
    · rintro ⟨f, hmem⟩
      exact ⟨(h, f), hmem, by simp⟩
  · simp [ShareManager.isTTHShared, ShareManager.lock, ShareManager.unlock]

/-- Claim C7. After `setDirty()` the member `xmlDirty` is true whatever it was
before, every other member has the value it had, and a second `setDirty()`
changes nothing. -/
theorem setDirty_sets_only_xmlDirty (s : ShareManager) :
    s.setDirty.xmlDirty = true ∧
    (s.setDirty.hits = s.hits ∧ s.setDirty.bzXmlFile = s.bzXmlFile ∧
      s.setDirty.xmlListLen = s.xmlListLen ∧ s.setDirty.xmlRoot = s.xmlRoot ∧
      s.setDirty.bzXmlListLen = s.bzXmlListLen ∧ s.setDirty.bzXmlRoot = s.bzXmlRoot ∧
      s.setDirty.bzXmlRef = s.bzXmlRef ∧ s.setDirty.forceXmlRefresh = s.forceXmlRefresh ∧
      s.setDirty.refreshDirs = s.refreshDirs ∧ s.setDirty.update = s.update ∧
      s.setDirty.initial = s.initial ∧ s.setDirty.listN = s.listN ∧
      s.setDirty.refreshing = s.refreshing ∧ s.setDirty.lastXmlUpdate = s.lastXmlUpdate ∧
      s.setDirty.lastFullUpdate = s.lastFullUpdate ∧ s.setDirty.cs = s.cs ∧
      s.setDirty.directories = s.directories ∧ s.setDirty.shares = s.shares ∧
      s.setDirty.tthIndex = s.tthIndex ∧ s.setDirty.bloom = s.bloom) ∧
    s.setDirty.setDirty = s.setDirty := by
  simp [ShareManager.setDirty]

end dcpp

namespace ChatEdit

/-! ## The claims about `ChatEdit` -/

/-- Claim C9 fails on the code. With no completer set, the Tab key is handled
without touching `cc`; but any other key that carries neither Control nor
Shift passes the guarded tests, reaches the base handler, and then evaluates
`cc->popup()` with `cc` null. -/
theorem keyPressEvent_dereferences_null_completer
    (base : QPlainTextEdit → QKeyEvent → QPlainTextEdit × QKeyEvent)
    (complete : ChatEdit → Option ChatEdit) (w : ChatEdit) (e : QKeyEvent)
    (hcc : w.cc = none) :
    (e.key = Key_Tab → (keyPressEvent base complete w e).isSome = true) ∧
    (e.key ≠ Key_Tab → e.modifiers &&& (ControlModifier ||| ShiftModifier) = 0 →
      keyPressEvent base complete w e = none) := by
  constructor
  · intro hkey
    unfold keyPressEvent
    simp only [hkey, if_true, hcc]
    split <;> rfl
  · intro hkey hmod
    simp [keyPressEvent, hcc, hkey, hmod]

/-- Witness for claim C9: the letter "a" typed into a chat input without
completer. -/
theorem keyPressEvent_dereferences_null_completer_witness
    : sampleEdit.cc = none ∧ letterA.key ≠ Key_Tab ∧
      keyPressEvent (fun b e => (b, e)) (fun w => some w) sampleEdit letterA = none :=
  ⟨rfl, by decide,
    (keyPressEvent_dereferences_null_completer (fun b e => (b, e)) (fun w => some w)
      sampleEdit letterA rfl).2 (by decide) (by decide)⟩

/-- Claim C10 as stated fails when `begin` lies behind the cursor: in "abc"
with the cursor at 1, `insertToPos("x", 2)` gives "ax c", so the text in front
of position 2 is not left as it was. -/
theorem insertToPos_begin_behind_cursor :
    (sampleEdit.insertToPos [120] 2).text = [97, 120, 32, 99] ∧
    (sampleEdit.insertToPos [120] 2).text ≠
      sampleEdit.text.take 2 ++ ([120] ++ [32]) ++ sampleEdit.text.drop 1 := by
  decide

/-- The text `insertToPos` leaves for a non-empty completion when
`max(begin, 0)` is not behind the cursor. -/
theorem insertToPos_text (w : ChatEdit) (c : QString) (begin : Int)
    (hpos : w.cursor.position ≤ w.text.length) (hb : max begin 0 ≤ w.cursor.position)
    (hc : c ≠ []) :
    (w.insertToPos c begin).text =
      w.text.take (max begin 0).toNat
        ++ (c ++ if max begin 0 = 0 then [58, 32] else [32])
        ++ w.text.drop w.cursor.position.toNat := by
  have hne : c.isEmpty = false := by
    cases c with
    | nil => exact absurd rfl hc
    | cons _ _ => rfl
  have hmax : (if begin < 0 then 0 else begin) = max begin 0 := by
    split <;> omega
  have h0 : (0 : Int) ≤ max begin 0 := le_max_right _ _
  simp only [insertToPos, hne, Bool.false_eq_true, if_false, hmax]
  have hr1 : ¬ (max begin 0 < 0 ∨ (w.text.length : Int) < max begin 0) := by omega
  have hr2 : ¬ (w.cursor.position < 0 ∨ (w.text.length : Int) < w.cursor.position) := by
    omega
  simp only [QTextCursor.setPosition, hr1, hr2, if_false]
  have hmin : min (max begin 0) w.cursor.position = max begin 0 := min_eq_left hb
  have hmx : max (max begin 0) w.cursor.position = w.cursor.position := max_eq_right hb
  by_cases hz : max begin 0 = 0
  · simp only [hz, if_true, QTextCursor.insertText]
    have hmin0 : min 0 w.cursor.position = 0 := by omega
    have hmx0 : max 0 w.cursor.position = w.cursor.position := by omega
    simp [hmin0, hmx0]
  · simp only [hz, if_false, QTextCursor.insertText, hmin, hmx]

/-- The slot `insertCompletion` always calls `insertToPos` with a `begin` that
is not behind the cursor: with a completer attached to this widget and a valid
index, the typed prefix in front of the cursor is replaced by the nick. -/
theorem insertCompletion_text (w : ChatEdit) (c : QCompleter) (row column : Int)
    (hcc : w.cc = some c) (hw : c.widget = w.this)
    (hlo : 0 ≤ w.cursor.position) (hpos : w.cursor.position ≤ w.text.length)
    (hn : c.completionData row column ≠ []) :
    ∃ w', w.insertCompletion true row column = some w' ∧
      w'.text =
        w.text.take (max (w.cursor.position - c.completionPrefix.length) 0).toNat
          ++ (c.completionData row column
            ++ if max (w.cursor.position - c.completionPrefix.length) 0 = 0
               then [58, 32] else [32])
          ++ w.text.drop w.cursor.position.toNat := by
  refine ⟨w.insertToPos (c.completionData row column)
    (w.cursor.position - c.completionPrefix.length), ?_, ?_⟩
  · simp [insertCompletion, hcc, hw]
  · exact insertToPos_text w _ _ hpos (by omega) hn

/-- Claim C10, amended. An empty completion leaves the widget as it is. A
non-empty completion `c`, with `b = max(begin, 0)` not behind the cursor
position `end` (itself inside the document), replaces the characters from `b`
to `end` by `c` and ": " when `b` is 0 and by `c` and one space otherwise; the
text in front of `b` and behind `end` stays. -/
theorem insertToPos_replaces_typed_part (w : ChatEdit) (c : QString) (begin : Int)
    (hpos : w.cursor.position ≤ w.text.length) (hb : max begin 0 ≤ w.cursor.position) :
    (c = [] → w.insertToPos c begin = w) ∧
    (c ≠ [] →
      (w.insertToPos c begin).text =
        w.text.take (max begin 0).toNat
          ++ (c ++ if max begin 0 = 0 then [58, 32] else [32])
          ++ w.text.drop w.cursor.position.toNat) := by
  constructor
  · intro hc
    simp [insertToPos, hc]
  · intro hc
    exact insertToPos_text w c begin hpos hb hc

/-- Witness for claim C10 as amended: in "abc" with the cursor at 1,
`insertToPos("x", 0)` gives "x: bc". -/
theorem insertToPos_replaces_typed_part_witness :
    (sampleEdit.insertToPos [120] 0).text = [120, 58, 32, 98, 99] :=
  ((insertToPos_replaces_typed_part sampleEdit [120] 0 (by decide) (by decide)).2 (by decide))

end ChatEdit

namespace dcpp

/-! ## The size invariant of the tree operations -/

theorem subtree_eq (d : Directory) : d.subtree = d :: subtreeList d.directories := by
  cases d
  simp [Directory.subtree, Directory.directories]

theorem subtreeList_cons (k : Str) (d : Directory) (rest : List (Str × Directory)) :
    subtreeList ((k, d) :: rest) = d.subtree ++ subtreeList rest := by
  simp [subtreeList]

theorem sumDirSizes_cons (k : Str) (d : Directory) (rest : List (Str × Directory)) :
    sumDirSizes ((k, d) :: rest) = d.size + sumDirSizes rest := by
  simp [sumDirSizes]

mutual
theorem recompute_sizes (getType : Str → Nat) :
    ∀ d : Directory, ∀ x ∈ (d.recompute getType).subtree, x.sizeCached
  | Directory.mk a n p s ds fs t => by
    intro x hx
    simp only [Directory.recompute, Directory.subtree, List.mem_cons] at hx
    rcases hx with rfl | hx
    · simp [Directory.sizeCached, Directory.size, Directory.directories, Directory.files]
    · exact recomputeList_sizes getType ds x hx
theorem recomputeList_sizes (getType : Str → Nat) :
    ∀ ds : List (Str × Directory), ∀ x ∈ subtreeList (recomputeList getType ds), x.sizeCached
  | [] => by simp [recomputeList, subtreeList]
  | (k, d) :: rest => by
    intro x hx
    simp only [recomputeList, subtreeList, List.mem_append] at hx
    rcases hx with hx | hx
    · exact recompute_sizes getType d x hx
    · exact recomputeList_sizes getType rest x hx
end

theorem sumFileSizes_setInsert (less : File → File → Bool) (s : List File) (f : File) :
    sumFileSizes (setInsert less s f) =
      sumFileSizes s + (if setInserted less s f then f.size else 0) := by
  induction s with
  | nil => simp [setInsert, setInserted, sumFileSizes]
  | cons y ys ih =>
    simp only [sumFileSizes] at ih
    by_cases h1 : less y f = true
    · simp only [setInsert, setInserted, h1, if_true, sumFileSizes, List.map_cons, List.sum_cons, ih]
      omega
    · by_cases h2 : less f y = true
      · simp only [setInsert, setInserted, h1, h2, if_true, if_false, sumFileSizes, List.map_cons,
          List.sum_cons, Bool.false_eq_true]
        omega
      · simp [setInsert, setInserted, h1, h2, sumFileSizes]

theorem sumFileSizes_eraseIdx (s : List File) (i : Nat) (old : File) (h : s.get? i = some old) :
    sumFileSizes (s.eraseIdx i) = sumFileSizes s - old.size := by
  induction s generalizing i with
  | nil => simp at h
  | cons y ys ih =>
    cases i with
    | zero =>
      simp at h
      subst h
      simp [sumFileSizes]
    | succ j =>
      simp only [List.get?_cons_succ] at h
      have := ih j h
      simp only [sumFileSizes] at this
      simp only [List.eraseIdx_cons_succ, sumFileSizes, List.map_cons, List.sum_cons, this]
      omega

theorem insertFile_sizeCached (cs : Bool) (st : Str → Str → Int) (getType : Str → Nat)
    (f : File) (d : Directory) (h : d.sizeCached) :
    (d.insertFile cs st getType f).1.sizeCached := by
  unfold Directory.insertFile
  split
  · rename_i hins
    cases d
    unfold Directory.sizeCached at h ⊢
    simp only [Directory.size, Directory.directories, Directory.files] at h ⊢
    rw [sumFileSizes_setInsert]
    simp only [Directory.files] at hins
    simp only [hins, if_true]
    omega
  · exact h

theorem insertFile_directories (cs : Bool) (st : Str → Str → Int) (getType : Str → Nat)
    (f : File) (d : Directory) :
    (d.insertFile cs st getType f).1.directories = d.directories := by
  unfold Directory.insertFile
  split <;> simp [Directory.directories]

theorem removeFileAt_sizeCached (i : Nat) (d : Directory) (h : d.sizeCached) :
    (d.removeFileAt i).sizeCached := by
  unfold Directory.removeFileAt
  split
  · rename_i old hold
    cases d
    unfold Directory.sizeCached at h ⊢
    simp only [Directory.size, Directory.directories, Directory.files] at h hold ⊢
    rw [sumFileSizes_eraseIdx _ _ _ hold]
    omega
  · exact h

theorem removeFileAt_directories (i : Nat) (d : Directory) :
    (d.removeFileAt i).directories = d.directories := by
  unfold Directory.removeFileAt
  split <;> simp [Directory.directories]

theorem hashDoneHere_sizeCached (cs : Bool) (st : Str → Str → Int) (getType : Str → Nat)
    (name : Str) (size : Int) (tth : TTHValue) (d : Directory) (h : d.sizeCached) :
    (d.hashDoneHere cs st getType name size tth).1.sizeCached := by
  unfold Directory.hashDoneHere
  split
  · split
    · exact h
    · exact insertFile_sizeCached _ _ _ _ _ (removeFileAt_sizeCached _ _ h)
  · exact insertFile_sizeCached _ _ _ _ _ h

theorem hashDoneHere_directories (cs : Bool) (st : Str → Str → Int) (getType : Str → Nat)
    (name : Str) (size : Int) (tth : TTHValue) (d : Directory) :
    (d.hashDoneHere cs st getType name size tth).1.directories = d.directories := by
  unfold Directory.hashDoneHere
  split
  · split
    · rfl
    · rw [insertFile_directories, removeFileAt_directories]
  · rw [insertFile_directories]

mutual
theorem editAt_sizes (st : Str → Str → Int) (g : Directory → Directory × Nat)
    (hg : ∀ d, d.sizeCached → (g d).1.sizeCached)
    (hgd : ∀ d, (g d).1.directories = d.directories) :
    ∀ (d : Directory) (path : List Str) (r : Directory × Nat),
      d.editAt st g path = some r → (∀ x ∈ d.subtree, x.sizeCached) →
      ∀ x ∈ r.1.subtree, x.sizeCached
  | d, [], r => by
    intro he hd x hx
    simp only [Directory.editAt, Option.some.injEq] at he
    subst he
    rw [subtree_eq, hgd, List.mem_cons] at hx
    rcases hx with rfl | hx
    · exact hg d (hd d (by rw [subtree_eq]; exact List.mem_cons_self _ _))
    · exact hd x (by rw [subtree_eq]; exact List.mem_cons_of_mem _ hx)
  | Directory.mk a nm p s ds fs t, n :: path, r => by
    intro he hd x hx
    simp only [Directory.editAt] at he
    cases hc : editChild st g n path ds with
    | none => simp [hc] at he
    | some q =>
      obtain ⟨ds', delta, bits⟩ := q
      simp only [hc, Option.some.injEq] at he
      subst he
      have hsub : ∀ x ∈ subtreeList ds, x.sizeCached := by
        intro y hy
        exact hd y (by simp only [Directory.subtree]; exact List.mem_cons_of_mem _ hy)
      have hself : (Directory.mk a nm p s ds fs t).sizeCached :=
        hd _ (by simp only [Directory.subtree]; exact List.mem_cons_self _ _)
      have ih := editChild_sizes st g hg hgd ds n path (ds', delta, bits) hc hsub
      simp only [Directory.subtree, List.mem_cons] at hx
      rcases hx with rfl | hx
      · have h2 : sumDirSizes ds' = sumDirSizes ds + delta := ih.2
        unfold Directory.sizeCached at hself ⊢
        simp only [Directory.size, Directory.directories, Directory.files] at hself ⊢
        rw [h2]
        omega
      · exact ih.1 x hx
theorem editChild_sizes (st : Str → Str → Int) (g : Directory → Directory × Nat)
    (hg : ∀ d, d.sizeCached → (g d).1.sizeCached)
    (hgd : ∀ d, (g d).1.directories = d.directories) :
    ∀ (ds : List (Str × Directory)) (n : Str) (path : List Str)
      (r : List (Str × Directory) × Int × Nat),
      editChild st g n path ds = some r → (∀ x ∈ subtreeList ds, x.sizeCached) →
      (∀ x ∈ subtreeList r.1, x.sizeCached) ∧ sumDirSizes r.1 = sumDirSizes ds + r.2.1
  | [], n, path, r => by
    intro he
    simp [editChild] at he
  | (k, c) :: rest, n, path, r => by
    intro he hd
    simp only [editChild] at he
    have hc : ∀ x ∈ c.subtree, x.sizeCached := fun x hx =>
      hd x (by rw [subtreeList_cons]; exact List.mem_append_left _ hx)
    have hrest : ∀ x ∈ subtreeList rest, x.sizeCached := fun x hx =>
      hd x (by rw [subtreeList_cons]; exact List.mem_append_right _ hx)
    by_cases hk : sameKey st k n = true
    · simp only [hk, if_true] at he
      cases hce : c.editAt st g path with
      | none => simp [hce] at he
      | some q =>
        obtain ⟨c', bits⟩ := q
        simp only [hce, Option.some.injEq] at he
        subst he
        have ih := editAt_sizes st g hg hgd c path (c', bits) hce hc
        constructor
        · intro x hx
          rw [subtreeList_cons, List.mem_append] at hx
          rcases hx with hx | hx
          · exact ih x hx
          · exact hrest x hx
        · show sumDirSizes ((k, c') :: rest) = sumDirSizes ((k, c) :: rest) + (c'.size - c.size)
          rw [sumDirSizes_cons, sumDirSizes_cons]
          omega
    · simp only [hk, Bool.false_eq_true, if_false] at he
      cases hre : editChild st g n path rest with
      | none => simp [hre] at he
      | some q =>
        obtain ⟨rest', delta, bits⟩ := q
        simp only [hre, Option.some.injEq] at he
        subst he
        have ih := editChild_sizes st g hg hgd rest n path (rest', delta, bits) hre hrest
        constructor
        · intro x hx
          rw [subtreeList_cons, List.mem_append] at hx
          rcases hx with hx | hx
          · exact hc x hx
          · exact ih.1 x hx
        · have h2 : sumDirSizes rest' = sumDirSizes rest + delta := ih.2
          show sumDirSizes ((k, c) :: rest') = sumDirSizes ((k, c) :: rest) + delta
          rw [sumDirSizes_cons, sumDirSizes_cons, h2]
          omega
end

theorem sizesCached_cons (r : Directory) (rest : List Directory) :
    SizesCached (r :: rest) ↔ (∀ x ∈ r.subtree, x.sizeCached) ∧ SizesCached rest := by
  simp only [SizesCached, allDirectories, List.flatMap_cons, List.mem_append]
  constructor
  · intro h
    exact ⟨fun x hx => h x (Or.inl hx), fun x hx => h x (Or.inr hx)⟩
  · rintro ⟨h1, h2⟩ x (hx | hx)
    · exact h1 x hx
    · exact h2 x hx

theorem editRoots_sizes (st : Str → Str → Int) (g : Directory → Directory × Nat)
    (hg : ∀ d, d.sizeCached → (g d).1.sizeCached)
    (hgd : ∀ d, (g d).1.directories = d.directories)
    (path : List Str) (roots : List Directory) (h : SizesCached roots) :
    SizesCached (editRoots st g path roots) := by
  induction roots with
  | nil => cases path <;> simpa [editRoots] using h
  | cons r rest ih =>
    cases path with
    | nil => simpa [editRoots] using h
    | cons n path =>
      rw [sizesCached_cons] at h
      simp only [editRoots]
      split
      · cases he : r.editAt st g path with
        | none =>
          simp only
          exact (sizesCached_cons _ _).2 h
        | some q =>
          simp only
          exact (sizesCached_cons _ _).2 ⟨editAt_sizes st g hg hgd r path q he h.1, h.2⟩
      · exact (sizesCached_cons _ _).2 ⟨h.1, ih h.2⟩

theorem mergeRoots_sizes (cs : Bool) (st : Str → Str → Int) (getType : Str → Nat)
    (roots : List Directory) (shadow : Directory) (h : SizesCached roots) :
    SizesCached (mergeRoots cs st getType roots shadow) := by
  induction roots with
  | nil =>
    simp only [mergeRoots]
    exact (sizesCached_cons _ _).2 ⟨recompute_sizes getType shadow, h⟩
  | cons r rest ih =>
    rw [sizesCached_cons] at h
    simp only [mergeRoots]
    split
    · exact (sizesCached_cons _ _).2 ⟨recompute_sizes getType _, h.2⟩
    · exact (sizesCached_cons _ _).2 ⟨h.1, ih h.2⟩

/-- Claim C4. After any sequence of mutations of the tree (merges of shadow
trees, hash-done inserts, file-moved removes) from the empty tree, the cached
size of every directory reachable from a root is the sum of the cached sizes
of its child directories plus the sum of the sizes of its files, and `getSize`
returns that cached size. -/
theorem size_equation_after_mutations (caseSensitive : Bool) (stricmp : Str → Str → Int)
    (getType : Str → Nat) (mutations : List Mutation) :
    ∀ d ∈ allDirectories
        (mutations.foldl (Mutation.apply caseSensitive stricmp getType) []),
      d.size = sumDirSizes d.directories + sumFileSizes d.files ∧ d.getSize = d.size := by
  have key : ∀ (ms : List Mutation) (roots : List Directory), SizesCached roots →
      SizesCached (ms.foldl (Mutation.apply caseSensitive stricmp getType) roots) := by
    intro ms
    induction ms with
    | nil => intro roots h; exact h
    | cons m ms ih =>
      intro roots h
      apply ih
      cases m with
      | merge shadow => exact mergeRoots_sizes _ _ _ _ _ h
      | hashDone path name size tth =>
        exact editRoots_sizes _ _ (hashDoneHere_sizeCached _ _ _ _ _ _)
          (hashDoneHere_directories _ _ _ _ _ _) _ _ h
      | fileMoved path name =>
        refine editRoots_sizes _ _ ?_ ?_ _ _ h
        · intro d hd
          exact removeFileAt_sizeCached _ _ hd
        · intro d
          exact removeFileAt_directories _ _
  intro d hd
  refine ⟨key mutations [] ?_ d hd, rfl⟩
  intro x hx
  simp [allDirectories] at hx

/-- Witness for claim C4: at the end of the example run, in which the
case-insensitive removal of "B" takes the file "b" of 20 bytes away, the
directory "D" is in the tree with the cached size 15, the sum of its two files,
and the root reports 15 as well. -/
theorem size_equation_after_mutations_witness :
    (allDirectories (sampleMutations.foldl (Mutation.apply false stricmpAscii (fun _ => 1))
      [])).map Directory.getSize = [15, 15] ∧
    sampleChildAfter.size = sumDirSizes sampleChildAfter.directories
      + sumFileSizes sampleChildAfter.files ∧
    sampleChildAfter.getSize = sampleChildAfter.size :=
  ⟨by decide,
    size_equation_after_mutations false stricmpAscii (fun _ => 1) sampleMutations
      sampleChildAfter (List.mem_cons_of_mem _ (List.mem_cons_self _ _))⟩

/-! ## The hash index -/

theorem forall₂_editRel_refl (g : Directory → Directory × Nat) (o : Directory)
    (l : List Directory) : List.Forall₂ (EditRel g o) l l :=
  List.forall₂_same.2 (fun _ _ => Or.inl rfl)

mutual
theorem editAt_rel (st : Str → Str → Int) (g : Directory → Directory × Nat)
    (hgd : ∀ d, (g d).1.directories = d.directories) :
    ∀ (d : Directory) (path : List Str) (o : Directory), d.descend st path = some o →
      ∃ r, d.editAt st g path = some r ∧
        List.Forall₂ (EditRel g o) d.subtree r.1.subtree ∧ o ∈ d.subtree ∧
        ∃ x' ∈ r.1.subtree, x'.files = (g o).1.files
  | d, [], o => by
    intro hdesc
    simp only [Directory.descend, Option.some.injEq] at hdesc
    subst hdesc
    refine ⟨g d, by simp [Directory.editAt], ?_, ?_, (g d).1, ?_, rfl⟩
    · rw [subtree_eq d, subtree_eq (g d).1, hgd]
      exact List.Forall₂.cons (Or.inr ⟨rfl, rfl⟩) (forall₂_editRel_refl _ _ _)
    · rw [subtree_eq]; exact List.mem_cons_self _ _
    · rw [subtree_eq]; exact List.mem_cons_self _ _
  | Directory.mk a nm p s ds fs t, n :: path, o => by
    intro hdesc
    simp only [Directory.descend] at hdesc
    obtain ⟨r, he, hrel, ho, x', hx', hfx⟩ := editChild_rel st g hgd ds n path o hdesc
    obtain ⟨ds', delta, bits⟩ := r
    refine ⟨(Directory.mk a nm p (s + delta) ds' fs (t ||| bits), bits), ?_, ?_, ?_, x', ?_, hfx⟩
    · simp [Directory.editAt, he]
    · simp only [Directory.subtree]
      exact List.Forall₂.cons (Or.inl rfl) hrel
    · simp only [Directory.subtree]
      exact List.mem_cons_of_mem _ ho
    · simp only [Directory.subtree]
      exact List.mem_cons_of_mem _ hx'
theorem editChild_rel (st : Str → Str → Int) (g : Directory → Directory × Nat)
    (hgd : ∀ d, (g d).1.directories = d.directories) :
    ∀ (ds : List (Str × Directory)) (n : Str) (path : List Str) (o : Directory),
      descendChild st n path ds = some o →
      ∃ r, editChild st g n path ds = some r ∧
        List.Forall₂ (EditRel g o) (subtreeList ds) (subtreeList r.1) ∧ o ∈ subtreeList ds ∧
        ∃ x' ∈ subtreeList r.1, x'.files = (g o).1.files
  | [], n, path, o => by
    intro hdesc
    simp [descendChild] at hdesc
  | (k, c) :: rest, n, path, o => by
    intro hdesc
    simp only [descendChild] at hdesc
    by_cases hk : sameKey st k n = true
    · simp only [hk, if_true] at hdesc
      obtain ⟨r, he, hrel, ho, x', hx', hfx⟩ := editAt_rel st g hgd c path o hdesc
      obtain ⟨c', bits⟩ := r
      refine ⟨((k, c') :: rest, c'.size - c.size, bits), ?_, ?_, ?_, x', ?_, hfx⟩
      · simp [editChild, hk, he]
      · simp only [subtreeList_cons]
        exact List.rel_append hrel (forall₂_editRel_refl _ _ _)
      · rw [subtreeList_cons]; exact List.mem_append_left _ ho
      · simp only [subtreeList_cons]; exact List.mem_append_left _ hx'
    · simp only [hk, Bool.false_eq_true, if_false] at hdesc
      obtain ⟨r, he, hrel, ho, x', hx', hfx⟩ := editChild_rel st g hgd rest n path o hdesc
      obtain ⟨rest', delta, bits⟩ := r
      refine ⟨((k, c) :: rest', delta, bits), ?_, ?_, ?_, x', ?_, hfx⟩
      · simp [editChild, hk, he]
      · simp only [subtreeList_cons]
        exact List.rel_append (forall₂_editRel_refl _ _ _) hrel
      · rw [subtreeList_cons]; exact List.mem_append_right _ ho
      · simp only [subtreeList_cons]; exact List.mem_append_right _ hx'
end

theorem allDirectories_cons (r : Directory) (rest : List Directory) :
    allDirectories (r :: rest) = r.subtree ++ allDirectories rest := by
  simp [allDirectories]

theorem editRoots_rel (st : Str → Str → Int) (g : Directory → Directory × Nat)
    (hgd : ∀ d, (g d).1.directories = d.directories) (path : List Str)
    (roots : List Directory) (o : Directory) (ho : findOwner st path roots = some o) :
    List.Forall₂ (EditRel g o) (allDirectories roots)
        (allDirectories (editRoots st g path roots)) ∧
      o ∈ allDirectories roots ∧
      ∃ x' ∈ allDirectories (editRoots st g path roots), x'.files = (g o).1.files := by
  induction roots with
  | nil => cases path <;> simp [findOwner] at ho
  | cons r rest ih =>
    cases path with
    | nil => simp [findOwner] at ho
    | cons n path =>
      simp only [findOwner] at ho
      by_cases hk : sameKey st r.name n = true
      · simp only [hk, if_true] at ho
        obtain ⟨q, he, hrel, hmem, x', hx', hfx⟩ := editAt_rel st g hgd r path o ho
        obtain ⟨r', bits⟩ := q
        simp only [editRoots, hk, if_true, he, allDirectories_cons]
        refine ⟨List.rel_append hrel (forall₂_editRel_refl _ _ _),
          List.mem_append_left _ hmem, x', List.mem_append_left _ hx', hfx⟩
      · simp only [hk, Bool.false_eq_true, if_false] at ho
        obtain ⟨hrel, hmem, x', hx', hfx⟩ := ih ho
        simp only [editRoots, hk, Bool.false_eq_true, if_false, allDirectories_cons]
        exact ⟨List.rel_append (forall₂_editRel_refl _ _ _) hrel,
          List.mem_append_right _ hmem, x', List.mem_append_right _ hx', hfx⟩

theorem forall₂_left {α β : Type} {R : α → β → Prop} {l : List α} {l' : List β}
    (h : List.Forall₂ R l l') : ∀ x ∈ l, ∃ x' ∈ l', R x x' := by
  induction h with
  | nil => intro x hx; cases hx
  | cons hab _ ih =>
    intro x hx
    rcases List.mem_cons.1 hx with rfl | hx
    · exact ⟨_, List.mem_cons_self _ _, hab⟩
    · obtain ⟨x', hx', hr⟩ := ih x hx
      exact ⟨x', List.mem_cons_of_mem _ hx', hr⟩

theorem forall₂_right {α β : Type} {R : α → β → Prop} {l : List α} {l' : List β}
    (h : List.Forall₂ R l l') : ∀ x' ∈ l', ∃ x ∈ l, R x x' := by
  induction h with
  | nil => intro x hx; cases hx
  | cons hab _ ih =>
    intro x hx
    rcases List.mem_cons.1 hx with rfl | hx
    · exact ⟨_, List.mem_cons_self _ _, hab⟩
    · obtain ⟨x', hx', hr⟩ := ih x hx
      exact ⟨x', List.mem_cons_of_mem _ hx', hr⟩

theorem mem_allFiles {roots : List Directory} {f : File} :
    f ∈ allFiles roots ↔ ∃ d ∈ allDirectories roots, f ∈ d.files := by
  simp [allFiles, List.mem_flatMap]

/-- An edit of the owner keeps the `files` sets strictly ascending when it
keeps the owner's. -/
theorem editRoots_ascending (cs : Bool) (st : Str → Str → Int)
    (g : Directory → Directory × Nat) (hgd : ∀ d, (g d).1.directories = d.directories)
    (path : List Str) (roots : List Directory) (o : Directory)
    (ho : findOwner st path roots = some o) (h : FilesAscending cs st roots)
    (hg : (g o).1.files.Pairwise (fun a b => File.FileLess cs st a b = true)) :
    FilesAscending cs st (editRoots st g path roots) := by
  intro x' hx'
  obtain ⟨x, hx, hr⟩ := forall₂_right (editRoots_rel st g hgd path roots o ho).1 x' hx'
  rcases hr with hr | ⟨_, hr⟩
  · rw [hr]; exact h x hx
  · rw [hr]; exact hg

/-- An edit of the owner keeps every file of the tree that it keeps in the
owner. -/
theorem editRoots_keeps (st : Str → Str → Int)
    (g : Directory → Directory × Nat) (hgd : ∀ d, (g d).1.directories = d.directories)
    (path : List Str) (roots : List Directory) (o : Directory)
    (ho : findOwner st path roots = some o) (f : File)
    (hkeep : f ∈ o.files → f ∈ (g o).1.files) (hf : f ∈ allFiles roots) :
    f ∈ allFiles (editRoots st g path roots) := by
  rw [mem_allFiles] at hf ⊢
  obtain ⟨x, hx, hfx⟩ := hf
  obtain ⟨x', hx', hr⟩ := forall₂_left (editRoots_rel st g hgd path roots o ho).1 x hx
  refine ⟨x', hx', ?_⟩
  rcases hr with hr | ⟨hxo, hr⟩
  · rw [hr]; exact hfx
  · rw [hr]; exact hkeep (hxo ▸ hfx)

/-- An edit of the owner puts every file the edit leaves in the owner into the
tree. -/
theorem editRoots_adds (st : Str → Str → Int)
    (g : Directory → Directory × Nat) (hgd : ∀ d, (g d).1.directories = d.directories)
    (path : List Str) (roots : List Directory) (o : Directory)
    (ho : findOwner st path roots = some o) (f : File) (hf : f ∈ (g o).1.files) :
    f ∈ allFiles (editRoots st g path roots) := by
  rw [mem_allFiles]
  obtain ⟨x', hx', hfx⟩ := (editRoots_rel st g hgd path roots o ho).2.2
  exact ⟨x', hx', hfx ▸ hf⟩


theorem setInserted_of_total {α : Type} (less : α → α → Bool) (s : List α) (x : α)
    (h : ∀ y ∈ s, less y x = true ∨ less x y = true) : setInserted less s x = true := by
  induction s with
  | nil => rfl
  | cons y ys ih =>
    simp only [setInserted]
    split
    · exact ih (fun z hz => h z (List.mem_cons_of_mem _ hz))
    · rename_i hyx
      rcases h y (List.mem_cons_self _ _) with h1 | h1
      · exact absurd h1 hyx
      · exact h1

theorem mem_setInsert_self {α : Type} (less : α → α → Bool) (s : List α) (x : α)
    (h : setInserted less s x = true) : x ∈ setInsert less s x := by
  induction s with
  | nil => simp [setInsert]
  | cons y ys ih =>
    simp only [setInserted] at h
    simp only [setInsert]
    split
    · rename_i hyx
      simp only [hyx, if_true] at h
      exact List.mem_cons_of_mem _ (ih h)
    · rename_i hyx
      simp only [hyx, Bool.false_eq_true, if_false] at h
      simp [h]

theorem insertFile_files_keep (cs : Bool) (st : Str → Str → Int) (getType : Str → Nat)
    (new : File) (d : Directory) (f : File) (hf : f ∈ d.files) :
    f ∈ (d.insertFile cs st getType new).1.files := by
  unfold Directory.insertFile
  split
  · simp only [Directory.files]
    exact mem_setInsert_of_mem _ _ _ _ hf
  · exact hf

theorem insertFile_new_mem (cs : Bool) (st : Str → Str → Int) (getType : Str → Nat)
    (new : File) (d : Directory)
    (h : ∀ y ∈ d.files, File.FileLess cs st y new = true ∨ File.FileLess cs st new y = true) :
    new ∈ (d.insertFile cs st getType new).1.files := by
  have hins := setInserted_of_total _ _ _ h
  unfold Directory.insertFile
  rw [if_pos hins]
  exact mem_setInsert_self _ _ _ hins

theorem insertFile_ascending (cs : Bool) (st : Str → Str → Int) (h : cs = false → ThreeWay st)
    (getType : Str → Nat) (new : File) (d : Directory)
    (hd : d.files.Pairwise (fun a b => File.FileLess cs st a b = true)) :
    (d.insertFile cs st getType new).1.files.Pairwise
      (fun a b => File.FileLess cs st a b = true) := by
  unfold Directory.insertFile
  split
  · simp only [Directory.files]
    exact setInsert_pairwise _ (FileLess_trans cs st h) _ _ hd
  · exact hd

theorem removeFileAt_files (i : Nat) (d : Directory) :
    (d.removeFileAt i).files = d.files.eraseIdx i := by
  unfold Directory.removeFileAt
  split
  · simp [Directory.files]
  · rename_i hnone
    rw [List.get?_eq_getElem?, List.getElem?_eq_none_iff] at hnone
    rw [List.eraseIdx_of_length_le hnone]

theorem mem_eraseIdx_of_ne {α : Type} (l : List α) (i : Nat) (old f : α)
    (hold : l.get? i = some old) (hf : f ∈ l) (hne : f ≠ old) : f ∈ l.eraseIdx i := by
  rw [List.mem_eraseIdx_iff_getElem?]
  obtain ⟨j, hj⟩ := List.mem_iff_get?.1 hf
  rw [List.get?_eq_getElem?] at hj hold
  refine ⟨j, ?_, hj⟩
  intro hji
  subst hji
  rw [hj] at hold
  exact hne (Option.some.inj hold)

theorem total_of_names_differ (cs : Bool) (st : Str → Str → Int) (h : cs = false → ThreeWay st)
    (a b : File) (hne : nameCmp cs st a.name b.name ≠ 0) :
    File.FileLess cs st a b = true ∨ File.FileLess cs st b a = true := by
  have tw := nameCmp_threeWay cs st h
  rw [FileLess_iff, FileLess_iff]
  have := tw.1 b.name a.name
  omega

/-- In a strictly ascending `files` set, no file but the one `findFile`
returns has a name equal to the one looked for. -/
theorem no_other_match (cs : Bool) (st : Str → Str → Int) (h : cs = false → ThreeWay st)
    (files : List File) (hs : files.Pairwise (fun a b => File.FileLess cs st a b = true))
    (name : Str) (old : File)
    (hold : files.get? (find_if (File.StringComp cs st name) files) = some old) :
    ∀ y ∈ files.eraseIdx (find_if (File.StringComp cs st name) files),
      nameCmp cs st y.name name ≠ 0 := by
  have tw := nameCmp_threeWay cs st h
  intro y hy h0
  rw [List.mem_eraseIdx_iff_getElem] at hy
  obtain ⟨j, hj, hji, hjy⟩ := hy
  rw [List.get?_eq_getElem?, List.getElem?_eq_some] at hold
  obtain ⟨hi, _⟩ := hold
  have hmatch := (StringComp_iff cs st name _).1 (find_if_spec _ _ hi)
  have hdiff := pairwise_names_differ cs st h files hs j _ hj hi hji
  rw [hjy] at hdiff
  exact hdiff (tw.2.2 _ _ _ h0 hmatch)

theorem indexPut_ok (roots : List Directory) (index : List (TTHValue × File)) (f : File)
    (h : IndexOk roots index) (hf : f ∈ allFiles roots) : IndexOk roots (indexPut index f) := by
  intro e he
  simp only [indexPut, List.mem_cons, List.mem_filter] at he
  rcases he with rfl | ⟨he, _⟩
  · exact ⟨rfl, hf⟩
  · exact h e he

theorem foldl_updateIndices_ok (bloomAdd : List Bool → Str → List Bool)
    (roots : List Directory) (fs : List File) (hfs : ∀ f ∈ fs, f ∈ allFiles roots)
    (s : ShareManager) (hd : s.directories = roots) (hi : IndexOk roots s.tthIndex) :
    (fs.foldl (ShareManager.updateIndices bloomAdd) s).directories = roots ∧
    IndexOk roots (fs.foldl (ShareManager.updateIndices bloomAdd) s).tthIndex := by
  induction fs generalizing s with
  | nil => exact ⟨hd, hi⟩
  | cons f fs ih =>
    simp only [List.foldl_cons]
    apply ih (fun x hx => hfs x (List.mem_cons_of_mem _ hx))
    · simpa [ShareManager.updateIndices] using hd
    · simp only [ShareManager.updateIndices]
      exact indexPut_ok _ _ _ hi (hfs f (List.mem_cons_self _ _))

theorem foldl_updateIndicesDir_ok (bloomAdd : List Bool → Str → List Bool)
    (roots : List Directory) (ds : List Directory) (hds : ∀ d ∈ ds, d ∈ roots)
    (s : ShareManager) (hd : s.directories = roots) (hi : IndexOk roots s.tthIndex) :
    (ds.foldl (ShareManager.updateIndicesDir bloomAdd) s).directories = roots ∧
    IndexOk roots (ds.foldl (ShareManager.updateIndicesDir bloomAdd) s).tthIndex := by
  induction ds generalizing s with
  | nil => exact ⟨hd, hi⟩
  | cons d ds ih =>
    simp only [List.foldl_cons]
    have hstep := foldl_updateIndices_ok bloomAdd roots (d.subtree.flatMap Directory.files)
      (by
        intro f hf
        rw [List.mem_flatMap] at hf
        obtain ⟨x, hx, hfx⟩ := hf
        rw [mem_allFiles]
        refine ⟨x, ?_, hfx⟩
        simp only [allDirectories, List.mem_flatMap]
        exact ⟨d, hds d (List.mem_cons_self _ _), hx⟩) s hd hi
    exact ih (fun x hx => hds x (List.mem_cons_of_mem _ hx)) _ hstep.1 hstep.2

theorem rebuildIndices_ok (bloomAdd : List Bool → Str → List Bool) (s : ShareManager) :
    (s.rebuildIndices bloomAdd).directories = s.directories ∧
    IndexOk s.directories (s.rebuildIndices bloomAdd).tthIndex := by
  unfold ShareManager.rebuildIndices
  apply foldl_updateIndicesDir_ok bloomAdd s.directories s.directories (fun d hd => hd)
  · rfl
  · intro e he
    simp at he


theorem indexDrop_ok (st : Str → Str → Int) (g : Directory → Directory × Nat)
    (hgd : ∀ d, (g d).1.directories = d.directories) (path : List Str)
    (roots : List Directory) (o : Directory) (ho : findOwner st path roots = some o)
    (index : List (TTHValue × File)) (old : File)
    (hkeep : ∀ f ∈ o.files, f ≠ old → f ∈ (g o).1.files) (h : IndexOk roots index) :
    IndexOk (editRoots st g path roots) (indexDrop index old) := by
  intro e he
  simp only [indexDrop, List.mem_filter, decide_eq_true_eq] at he
  obtain ⟨hmem, hne⟩ := he
  obtain ⟨htth, hfile⟩ := h e hmem
  refine ⟨htth, editRoots_keeps st g hgd path roots o ho e.2 ?_ hfile⟩
  intro hf
  apply hkeep _ hf
  intro heq
  apply hne
  rw [← heq, htth]

theorem hashDone_inv (cs : Bool) (st : Str → Str → Int) (h : cs = false → ThreeWay st)
    (getType : Str → Nat) (bloomAdd : List Bool → Str → List Bool) (s : ShareManager)
    (path : List Str) (name : Str) (size : Int) (tth : TTHValue)
    (hasc : FilesAscending cs st s.directories) (hidx : IndexOk s.directories s.tthIndex) :
    FilesAscending cs st (s.hashDone cs st getType bloomAdd path name size tth).directories ∧
    IndexOk (s.hashDone cs st getType bloomAdd path name size tth).directories
      (s.hashDone cs st getType bloomAdd path name size tth).tthIndex := by
  have tw := nameCmp_threeWay cs st h
  unfold ShareManager.hashDone
  cases ho : findOwner st path s.directories with
  | none => exact ⟨hasc, hidx⟩
  | some d =>
    dsimp only
    have hgd := hashDoneHere_directories cs st getType name size tth
    have hdmem : d ∈ allDirectories s.directories :=
      (editRoots_rel st _ hgd path s.directories d ho).2.1
    have hdasc := hasc d hdmem
    cases hold : d.files.get? (d.findFile cs st name) with
    | some old =>
      dsimp only
      by_cases ht : old.tth = tth
      · simp only [if_pos ht, ShareManager.setDirty, ShareManager.updateIndices]
        refine ⟨hasc, indexPut_ok _ _ _ hidx ?_⟩
        rw [mem_allFiles]
        exact ⟨d, hdmem, List.get?_mem hold⟩
      · simp only [if_neg ht, ShareManager.setDirty, ShareManager.updateIndices, hashDoneTree]
        have hg : d.hashDoneHere cs st getType name size tth =
            Directory.insertFile cs st getType
              { name := name, tth := tth, size := size, parent := d.addr }
              (d.removeFileAt (d.findFile cs st name)) := by
          simp only [Directory.hashDoneHere, hold]
          rw [if_neg ht]
        have hrem : (d.removeFileAt (d.findFile cs st name)).files.Pairwise
            (fun a b => File.FileLess cs st a b = true) := by
          rw [removeFileAt_files]
          exact List.Pairwise.sublist (List.eraseIdx_sublist _ _) hdasc
        have hnew : ({ name := name, tth := tth, size := size, parent := d.addr } : File) ∈
            (d.hashDoneHere cs st getType name size tth).1.files := by
          rw [hg]
          apply insertFile_new_mem
          intro y hy
          rw [removeFileAt_files] at hy
          exact total_of_names_differ cs st h _ _
            (no_other_match cs st h d.files hdasc name old hold y hy)
        have hkeep : ∀ f ∈ d.files, f ≠ old →
            f ∈ (d.hashDoneHere cs st getType name size tth).1.files := by
          intro f hf hne
          rw [hg]
          apply insertFile_files_keep
          rw [removeFileAt_files]
          exact mem_eraseIdx_of_ne _ _ _ _ hold hf hne
        refine ⟨?_, ?_⟩
        · apply editRoots_ascending cs st _ hgd path s.directories d ho hasc
          rw [hg]
          exact insertFile_ascending cs st h getType _ _ hrem
        · apply indexPut_ok
          · exact indexDrop_ok st _ hgd path s.directories d ho s.tthIndex old hkeep hidx
          · exact editRoots_adds st _ hgd path s.directories d ho _ hnew
    | none =>
      dsimp only [ShareManager.setDirty, ShareManager.updateIndices, hashDoneTree]
      have hg : d.hashDoneHere cs st getType name size tth =
          Directory.insertFile cs st getType
            { name := name, tth := tth, size := size, parent := d.addr } d := by
        simp only [Directory.hashDoneHere, hold]
      have hlen : find_if (File.StringComp cs st name) d.files = d.files.length := by
        have h1 := find_if_le (File.StringComp cs st name) d.files
        rw [List.get?_eq_getElem?, List.getElem?_eq_none_iff] at hold
        simp only [Directory.findFile] at hold
        omega
      have hnew : ({ name := name, tth := tth, size := size, parent := d.addr } : File) ∈
          (d.hashDoneHere cs st getType name size tth).1.files := by
        rw [hg]
        apply insertFile_new_mem
        intro y hy
        apply total_of_names_differ cs st h
        intro h0
        have hy0 := (find_if_eq_length _ _).1 hlen y hy
        have := (StringComp_iff cs st name y).2 (tw.symm h0)
        rw [hy0] at this
        exact Bool.false_ne_true this
      refine ⟨?_, ?_⟩
      · apply editRoots_ascending cs st _ hgd path s.directories d ho hasc
        rw [hg]
        exact insertFile_ascending cs st h getType _ _ hdasc
      · apply indexPut_ok
        · intro e he
          obtain ⟨htth, hfile⟩ := hidx e he
          refine ⟨htth, editRoots_keeps st _ hgd path s.directories d ho e.2 ?_ hfile⟩
          intro hf
          rw [hg]
          exact insertFile_files_keep _ _ _ _ _ _ hf
        · exact editRoots_adds st _ hgd path s.directories d ho _ hnew

theorem fileMoved_inv (cs : Bool) (st : Str → Str → Int) (s : ShareManager)
    (path : List Str) (name : Str)
    (hasc : FilesAscending cs st s.directories) (hidx : IndexOk s.directories s.tthIndex) :
    FilesAscending cs st (s.fileMoved cs st path name).directories ∧
    IndexOk (s.fileMoved cs st path name).directories
      (s.fileMoved cs st path name).tthIndex := by
  unfold ShareManager.fileMoved
  cases ho : findOwner st path s.directories with
  | none => exact ⟨hasc, hidx⟩
  | some d =>
    dsimp only
    have hgd : ∀ x : Directory,
        (Directory.fileMovedHere cs st name x).1.directories = x.directories :=
      fun x => removeFileAt_directories _ _
    have hdmem : d ∈ allDirectories s.directories :=
      (editRoots_rel st _ hgd path s.directories d ho).2.1
    have hdasc := hasc d hdmem
    cases hold : d.files.get? (d.findFile cs st name) with
    | none => exact ⟨hasc, hidx⟩
    | some old =>
      dsimp only [fileMovedTree]
      have hfiles : (Directory.fileMovedHere cs st name d).1.files =
          d.files.eraseIdx (d.findFile cs st name) := removeFileAt_files _ _
      refine ⟨?_, ?_⟩
      · apply editRoots_ascending cs st _ hgd path s.directories d ho hasc
        rw [hfiles]
        exact List.Pairwise.sublist (List.eraseIdx_sublist _ _) hdasc
      · apply indexDrop_ok st _ hgd path s.directories d ho s.tthIndex old _ hidx
        intro f hf hne
        rw [hfiles]
        exact mem_eraseIdx_of_ne _ _ _ _ hold hf hne

theorem reached_inv (cs : Bool) (st : Str → Str → Int) (h : cs = false → ThreeWay st)
    (getType : Str → Nat) (bloomAdd : List Bool → Str → List Bool) (s : ShareManager)
    (hr : Reached cs st getType bloomAdd s) :
    FilesAscending cs st s.directories ∧ IndexOk s.directories s.tthIndex := by
  induction hr with
  | rebuildIndices s hs =>
    have := rebuildIndices_ok bloomAdd s
    rw [this.1]
    exact ⟨hs, this.2⟩
  | updateIndices s d f _ hd hf ih =>
    simp only [ShareManager.updateIndices]
    refine ⟨ih.1, indexPut_ok _ _ _ ih.2 ?_⟩
    rw [mem_allFiles]
    exact ⟨d, hd, hf⟩
  | hashDone s path name size tth _ ih =>
    exact hashDone_inv cs st h getType bloomAdd s path name size tth ih.1 ih.2
  | fileMoved s path name _ ih =>
    exact fileMoved_inv cs st s path name ih.1 ih.2

/-- Claim C5. In every state that `rebuildIndices`, `updateIndices` and the
event sink reach (with `Util::stricmp` a three-way comparison when the policy
is case-insensitive), every entry `(h, f)` of `tthIndex` has `f.tth = h`, and
`f` is a member of the `files` of a directory reachable from a root. -/
theorem index_entries_have_hash_and_are_shared (caseSensitive : Bool)
    (stricmp : Str → Str → Int) (h : caseSensitive = false → ThreeWay stricmp)
    (getType : Str → Nat) (bloomAdd : List Bool → Str → List Bool) (s : ShareManager)
    (hr : Reached caseSensitive stricmp getType bloomAdd s) :
    ∀ e ∈ s.tthIndex,
      e.2.tth = e.1 ∧ ∃ d ∈ allDirectories s.directories, e.2 ∈ d.files := by
  intro e he
  obtain ⟨h1, h2⟩ := (reached_inv caseSensitive stricmp h getType bloomAdd s hr).2 e he
  exact ⟨h1, mem_allFiles.1 h2⟩


/-- Witness for claim C5: the index is rebuilt on the example tree and the hash
77 of a new file "c" in "R/D" arrives; the index then holds the hashes 77, 5
and 6, each with a file of the tree. -/
theorem index_entries_have_hash_and_are_shared_witness :
    (((sampleTreeShare.rebuildIndices (fun b _ => b)).hashDone false stricmpAscii
        (fun _ => 1) (fun b _ => b) [[82], [68]] [99] 5 77).tthIndex.map Prod.fst
      = [77, 5, 6]) ∧
    ∀ e ∈ ((sampleTreeShare.rebuildIndices (fun b _ => b)).hashDone false stricmpAscii
        (fun _ => 1) (fun b _ => b) [[82], [68]] [99] 5 77).tthIndex,
      e.2.tth = e.1 ∧
      ∃ d ∈ allDirectories ((sampleTreeShare.rebuildIndices (fun b _ => b)).hashDone false
          stricmpAscii (fun _ => 1) (fun b _ => b) [[82], [68]] [99] 5 77).directories,
        e.2 ∈ d.files :=
  ⟨by decide,
    index_entries_have_hash_and_are_shared false stricmpAscii (fun _ => stricmpAscii_threeWay)
      (fun _ => 1) (fun b _ => b) _
      (Reached.hashDone _ [[82], [68]] [99] 5 77
        (Reached.rebuildIndices sampleTreeShare (by decide)))⟩

end dcpp
